import Mathlib

/-!
Verification of the segmentation / scoring / diversity-rotation engine of the
`hafs_scawful` repository.

The development shallowly embeds the Python code of:

* `src/generators/prompt_templates.py` — `PromptTemplateRotator`
  (template catalog, usage-count dictionary, `get_next_template`,
  `reset_counts`, `get_stats`);
* `src/generators/asm_doc_generator.py` / `asm_hook_generator.py` /
  `asm_debug_generator.py` — `filter_items_for_task` (stable descending
  score sort and prefix selection with an absolute floor of 100);
* `src/generators/cpp_generator.py` — `extract_block` and the scanning
  passes of `_parse_cpp_file`;
* `src/generators/zelda3_generator.py` — `_extract_routines_from_file`
  and `_finalize_routine`;
* `src/scripts/routine_scanner.py` — `RoutineScanner.scan`.

Python dictionaries are embedded as association lists preserving insertion
order (new keys appended at the end, assignment to an existing key updates it
in place), `random.choice` is embedded as selection by an arbitrary index
supplied as an explicit `choice : Nat` argument (every element of the
candidate list is picked by some choice value), and a raised exception is
embedded as an `Option` result of `none`.
-/

namespace HafsSpec

/-! ## Ordered dictionary (Python `dict[str, int]`) as an association list -/

/-- Keys of the usage dictionary, in insertion order. -/
def dictKeys (d : List (String × Nat)) : List String := d.map Prod.fst

/-- Values of the usage dictionary, in insertion order. -/
def dictValues (d : List (String × Nat)) : List Nat := d.map Prod.snd

/-- Lookup with default: Python `d[k]` under the invariant that `k` is
present (the default is never consulted on the states the code builds). -/
def dictGetD : List (String × Nat) → String → Nat → Nat
  | [], _, v0 => v0
  | p :: rest, k, v0 => if p.1 = k then p.2 else dictGetD rest k v0

/-- Python `d[k] = 0`: overwrite the first entry for `k` in place, or append
a fresh entry at the end (insertion-ordered dict semantics). -/
def dictSetZero : List (String × Nat) → String → List (String × Nat)
  | [], k => [(k, 0)]
  | p :: rest, k => if p.1 = k then (k, 0) :: rest else p :: dictSetZero rest k

/-- Python `d[k] += 1` for a present key `k`: increment the first entry for
`k`; a dictionary without the key is returned unchanged (the Python code
only increments keys it initialized). -/
def dictIncr : List (String × Nat) → String → List (String × Nat)
  | [], _ => []
  | p :: rest, k => if p.1 = k then (p.1, p.2 + 1) :: rest else p :: dictIncr rest k

/-- Sum of all usage counters, as in `sum(self.usage_counts.values())`. -/
def sumValues (d : List (String × Nat)) : Nat := (dictValues d).sum

/-! ## `PromptTemplate` and `PromptTemplateRotator` state -/

/-- A single prompt template with metadata (`PromptTemplate` dataclass;
the `tags` field is never consulted by the rotator and is omitted). -/
structure PromptTemplate where
  template : String
  category : String
  domain : String
deriving DecidableEq

/-- The mutable state of a `PromptTemplateRotator`: the loaded template
catalog and the per-template-text usage counter dictionary. -/
structure RotState where
  domain : String
  templates : List PromptTemplate
  usage_counts : List (String × Nat)
deriving DecidableEq

/-- One iteration of the `_load_templates` loop: append the constructed
`PromptTemplate` to the catalog and initialize `usage_counts[text] = 0`. -/
def loadStep (domain : String) (s : RotState) (p : String × String) : RotState :=
  { s with
    templates := s.templates ++ [⟨p.1, p.2, domain⟩]
    usage_counts := dictSetZero s.usage_counts p.1 }

/-- The `_load_templates` loop over the `(template_str, category)` pairs of
the catalog source (TOML config section or built-in list). -/
def loadAux (domain : String) (s : RotState) : List (String × String) → RotState
  | [] => s
  | p :: ps => loadAux domain (loadStep domain s p) ps

/-- `PromptTemplateRotator.__init__`: starts from an empty catalog and empty
usage dictionary and runs `_load_templates`.  The initializer contains no
validation and no raise statement, so construction always succeeds and
returns a state, whatever the catalog contents. -/
def loadTemplates (domain : String) (pairs : List (String × String)) : RotState :=
  loadAux domain ⟨domain, [], []⟩ pairs

/-- Python `min(self.usage_counts[t.template] for t in candidates)` over a
non-empty candidate list (`0` on the empty list, which the code never
reaches because it raises first). -/
def minUsage (f : PromptTemplate → Nat) : List PromptTemplate → Nat
  | [] => 0
  | [t] => f t
  | t :: t' :: ts => Nat.min (f t) (minUsage f (t' :: ts))

/-- `PromptTemplateRotator.get_next_template`.  A raised `ValueError`
(empty catalog) is `none`.  `random.choice(least_used)` is embedded as
indexing by `choice % least_used.length`, so every possible random outcome
is some value of `choice`.  Python's falsy test `if category:` treats both
`None` and the empty string as no filter. -/
def get_next_template (s : RotState) (category : Option String) (choice : Nat) :
    Option (PromptTemplate × RotState) :=
  match s.templates with
  | [] => none
  | t0 :: ts =>
    let all := t0 :: ts
    let candidates :=
      match category with
      | none => all
      | some c =>
        if c = "" then all
        else
          let filtered := all.filter (fun t => t.category = c)
          if filtered.isEmpty then all else filtered
    let usage := fun t => dictGetD s.usage_counts t.template 0
    let m := minUsage usage candidates
    let least := candidates.filter (fun t => usage t = m)
    let chosen := least.getD (choice % least.length) t0
    some (chosen, { s with usage_counts := dictIncr s.usage_counts chosen.template })

/-- `PromptTemplateRotator.reset_counts`: zero every counter, keeping the
key set (and the catalog) unchanged. -/
def reset_counts (s : RotState) : RotState :=
  { s with usage_counts := s.usage_counts.map (fun p => (p.1, 0)) }

/-- The statistics record returned by `get_stats` (the `usage_counts` copy
and the `categories` list are reproducible from the state and omitted). -/
structure RotStats where
  domain : String
  total_templates : Nat
  total_uses : Nat
deriving DecidableEq

/-- `PromptTemplateRotator.get_stats`. -/
def get_stats (s : RotState) : RotStats :=
  ⟨s.domain, s.templates.length, sumValues s.usage_counts⟩

/-- A run of `N = choices.length` calls to `get_next_template()` with no
category argument; each element of `choices` resolves that call's random
tie-break.  A call that raises (empty catalog) leaves the state unchanged. -/
def runCalls (choices : List Nat) (s : RotState) : RotState :=
  choices.foldl
    (fun st c =>
      match get_next_template st none c with
      | some (_, st') => st'
      | none => st) s

/-- The usage counter of each catalog entry, in catalog order. -/
def templateUsages (s : RotState) : List Nat :=
  s.templates.map (fun t => dictGetD s.usage_counts t.template 0)

/-- A run of arbitrary `get_next_template` calls: each element of `calls`
supplies that call's category argument (possibly none) and its random
tie-break.  A call that raises (empty catalog) leaves the state
unchanged. -/
def runCallsCat (calls : List (Option String × Nat)) (s : RotState) : RotState :=
  calls.foldl
    (fun st pc =>
      match get_next_template st pc.1 pc.2 with
      | some (_, st') => st'
      | none => st) s

/-! ## Dictionary lemmas -/

@[simp] theorem dictKeys_nil : dictKeys [] = [] := rfl

@[simp] theorem dictKeys_cons (p : String × Nat) (d : List (String × Nat)) :
    dictKeys (p :: d) = p.1 :: dictKeys d := rfl

@[simp] theorem dictValues_nil : dictValues [] = [] := rfl

@[simp] theorem dictValues_cons (p : String × Nat) (d : List (String × Nat)) :
    dictValues (p :: d) = p.2 :: dictValues d := rfl

theorem mem_dictKeys_setZero (d : List (String × Nat)) (k k' : String) :
    k' ∈ dictKeys (dictSetZero d k) ↔ k' ∈ dictKeys d ∨ k' = k := by
  induction d with
  | nil => simp [dictSetZero]
  | cons p rest ih =>
    by_cases hp : p.1 = k
    · subst hp
      rw [show dictSetZero (p :: rest) p.1 = (p.1, 0) :: rest from by
        simp [dictSetZero]]
      simp only [dictKeys_cons, List.mem_cons]
      tauto
    · rw [show dictSetZero (p :: rest) k = p :: dictSetZero rest k from by
        simp [dictSetZero, hp]]
      simp only [dictKeys_cons, List.mem_cons, ih]
      tauto

theorem nodup_dictKeys_setZero (d : List (String × Nat)) (k : String)
    (h : (dictKeys d).Nodup) : (dictKeys (dictSetZero d k)).Nodup := by
  induction d with
  | nil => simp [dictSetZero]
  | cons p rest ih =>
    simp only [dictKeys_cons, List.nodup_cons] at h
    by_cases hp : p.1 = k
    · subst hp
      rw [show dictSetZero (p :: rest) p.1 = (p.1, 0) :: rest from by
        simp [dictSetZero]]
      simpa using ⟨h.1, h.2⟩
    · rw [show dictSetZero (p :: rest) k = p :: dictSetZero rest k from by
        simp [dictSetZero, hp]]
      simp only [dictKeys_cons, List.nodup_cons]
      refine ⟨fun hc => ?_, ih h.2⟩
      rcases (mem_dictKeys_setZero rest k p.1).1 hc with hm | he
      · exact h.1 hm
      · exact hp he

theorem values_setZero (d : List (String × Nat)) (k : String) :
    ∀ v ∈ dictValues (dictSetZero d k), v ∈ dictValues d ∨ v = 0 := by
  induction d with
  | nil => simp [dictSetZero]
  | cons p rest ih =>
    intro v hv
    by_cases hp : p.1 = k
    · rw [show dictSetZero (p :: rest) k = (k, 0) :: rest from by
        simp [dictSetZero, hp]] at hv
      simp only [dictValues_cons, List.mem_cons] at hv ⊢
      tauto
    · rw [show dictSetZero (p :: rest) k = p :: dictSetZero rest k from by
        simp [dictSetZero, hp]] at hv
      simp only [dictValues_cons, List.mem_cons] at hv ⊢
      rcases hv with h | h
      · exact Or.inl (Or.inl h)
      · rcases ih v h with h' | h'
        · exact Or.inl (Or.inr h')
        · exact Or.inr h'

theorem dictKeys_incr (d : List (String × Nat)) (k : String) :
    dictKeys (dictIncr d k) = dictKeys d := by
  induction d with
  | nil => rfl
  | cons p rest ih =>
    by_cases hp : p.1 = k
    · rw [show dictIncr (p :: rest) k = (p.1, p.2 + 1) :: rest from by
        simp [dictIncr, hp]]
      simp
    · rw [show dictIncr (p :: rest) k = p :: dictIncr rest k from by
        simp [dictIncr, hp]]
      simp [ih]

theorem dictGetD_incr_self (d : List (String × Nat)) (k : String) (v0 : Nat)
    (h : k ∈ dictKeys d) :
    dictGetD (dictIncr d k) k v0 = dictGetD d k v0 + 1 := by
  induction d with
  | nil => simp at h
  | cons p rest ih =>
    by_cases hp : p.1 = k
    · rw [show dictIncr (p :: rest) k = (p.1, p.2 + 1) :: rest from by
        simp [dictIncr, hp]]
      simp [dictGetD, hp]
    · simp only [dictKeys_cons, List.mem_cons] at h
      rcases h with h | h
      · exact absurd h.symm hp
      · rw [show dictIncr (p :: rest) k = p :: dictIncr rest k from by
          simp [dictIncr, hp]]
        simp [dictGetD, hp, ih h]

theorem dictGetD_incr_other (d : List (String × Nat)) (k k' : String) (v0 : Nat)
    (h : k' ≠ k) : dictGetD (dictIncr d k) k' v0 = dictGetD d k' v0 := by
  induction d with
  | nil => rfl
  | cons p rest ih =>
    by_cases hp : p.1 = k
    · have hk' : p.1 ≠ k' := by
        rw [hp]; exact fun he => h he.symm
      rw [show dictIncr (p :: rest) k = (p.1, p.2 + 1) :: rest from by
        simp [dictIncr, hp]]
      simp [dictGetD, hk']
    · rw [show dictIncr (p :: rest) k = p :: dictIncr rest k from by
        simp [dictIncr, hp]]
      by_cases hp' : p.1 = k'
      · simp [dictGetD, hp']
      · simp [dictGetD, hp', ih]

theorem sumValues_cons (p : String × Nat) (d : List (String × Nat)) :
    sumValues (p :: d) = p.2 + sumValues d := by
  simp [sumValues]

theorem sumValues_incr (d : List (String × Nat)) (k : String)
    (h : k ∈ dictKeys d) : sumValues (dictIncr d k) = sumValues d + 1 := by
  induction d with
  | nil => simp at h
  | cons p rest ih =>
    by_cases hp : p.1 = k
    · rw [show dictIncr (p :: rest) k = (p.1, p.2 + 1) :: rest from by
        simp [dictIncr, hp]]
      rw [sumValues_cons, sumValues_cons]
      omega
    · simp only [dictKeys_cons, List.mem_cons] at h
      rcases h with h | h
      · exact absurd h.symm hp
      · rw [show dictIncr (p :: rest) k = p :: dictIncr rest k from by
          simp [dictIncr, hp]]
        rw [sumValues_cons, sumValues_cons, ih h]
        omega

theorem values_incr (d : List (String × Nat)) (k : String) :
    ∀ v ∈ dictValues (dictIncr d k), v ∈ dictValues d ∨ v = dictGetD d k 0 + 1 := by
  induction d with
  | nil => simp [dictIncr]
  | cons p rest ih =>
    intro v hv
    by_cases hp : p.1 = k
    · rw [show dictIncr (p :: rest) k = (p.1, p.2 + 1) :: rest from by
        simp [dictIncr, hp]] at hv
      simp only [dictValues_cons, List.mem_cons] at hv ⊢
      rcases hv with h | h
      · exact Or.inr (by simp [dictGetD, hp, h])
      · exact Or.inl (Or.inr h)
    · rw [show dictIncr (p :: rest) k = p :: dictIncr rest k from by
        simp [dictIncr, hp]] at hv
      simp only [dictValues_cons, List.mem_cons] at hv ⊢
      rcases hv with h | h
      · exact Or.inl (Or.inl h)
      · rcases ih v h with h' | h'
        · exact Or.inl (Or.inr h')
        · exact Or.inr (by simp [dictGetD, hp, h'])

theorem dictGetD_mem (d : List (String × Nat)) (k : String) (v0 : Nat)
    (h : k ∈ dictKeys d) : (k, dictGetD d k v0) ∈ d := by
  induction d with
  | nil => simp at h
  | cons p rest ih =>
    by_cases hp : p.1 = k
    · simp only [dictGetD, if_pos hp, List.mem_cons]
      exact Or.inl (by rw [← hp])
    · simp only [dictKeys_cons, List.mem_cons] at h
      rcases h with h | h
      · exact absurd h.symm hp
      · simp only [dictGetD, if_neg hp, List.mem_cons]
        exact Or.inr (ih h)

theorem getD_of_mem_nodup (d : List (String × Nat)) (k : String) (v v0 : Nat)
    (hn : (dictKeys d).Nodup) (h : (k, v) ∈ d) : dictGetD d k v0 = v := by
  induction d with
  | nil => simp at h
  | cons p rest ih =>
    simp only [dictKeys_cons, List.nodup_cons] at hn
    rcases List.mem_cons.1 h with h | h
    · simp [← h, dictGetD]
    · have hp : p.1 ≠ k := by
        intro he
        apply hn.1
        have : (k, v).1 ∈ dictKeys rest := List.mem_map_of_mem Prod.fst h
        simpa [he] using this
      simp [dictGetD, hp, ih hn.2 h]

theorem mem_values_of_mem (d : List (String × Nat)) (k : String) (v : Nat)
    (h : (k, v) ∈ d) : v ∈ dictValues d :=
  List.mem_map_of_mem Prod.snd h

/-! ## Minimum-usage lemmas -/

theorem minUsage_le (f : PromptTemplate → Nat) (l : List PromptTemplate) :
    ∀ x ∈ l, minUsage f l ≤ f x := by
  induction l with
  | nil => simp
  | cons t ts ih =>
    intro x hx
    cases ts with
    | nil =>
      rcases List.mem_cons.1 hx with h | h
      · simp [minUsage, h]
      · simp at h
    | cons t' ts' =>
      rcases List.mem_cons.1 hx with h | h
      · simp [minUsage, h, Nat.min_le_left]
      · exact le_trans (Nat.min_le_right _ _) (ih x h)

theorem exists_minUsage (f : PromptTemplate → Nat) (l : List PromptTemplate)
    (h : l ≠ []) : ∃ x ∈ l, f x = minUsage f l := by
  induction l with
  | nil => exact absurd rfl h
  | cons t ts ih =>
    cases ts with
    | nil => exact ⟨t, List.mem_cons_self _ _, rfl⟩
    | cons t' ts' =>
      rcases ih (by simp) with ⟨x, hx, hfx⟩
      rcases Nat.le_total (f t) (minUsage f (t' :: ts')) with hle | hle
      · exact ⟨t, List.mem_cons_self _ _, by simp [minUsage, Nat.min_eq_left hle]⟩
      · exact ⟨x, List.mem_cons_of_mem _ hx, by simp [minUsage, Nat.min_eq_right hle, hfx]⟩

/-! ## Characterization of `get_next_template` without a category filter -/

theorem getD_mem_of_lt {α : Type} (l : List α) (n : Nat) (d : α) (h : n < l.length) :
    l.getD n d ∈ l := by
  induction l generalizing n with
  | nil => simp at h
  | cons a as ih =>
    cases n with
    | zero => simp [List.getD]
    | succ n =>
      have : as.getD n d ∈ as := ih n (by simpa using h)
      simpa [List.getD] using Or.inr this

theorem get_next_none_eq (dom : String) (t0 : PromptTemplate) (ts : List PromptTemplate)
    (uc : List (String × Nat)) (c : Nat) :
    get_next_template ⟨dom, t0 :: ts, uc⟩ none c =
      (let usage := fun t : PromptTemplate => dictGetD uc t.template 0
       let m := minUsage usage (t0 :: ts)
       let least := (t0 :: ts).filter (fun t => usage t = m)
       let chosen := least.getD (c % least.length) t0
       some (chosen, ⟨dom, t0 :: ts, dictIncr uc chosen.template⟩)) := rfl

theorem get_next_none_spec (s : RotState) (c : Nat) (t : PromptTemplate) (s' : RotState)
    (h : get_next_template s none c = some (t, s')) :
    t ∈ s.templates ∧
    dictGetD s.usage_counts t.template 0 =
      minUsage (fun u => dictGetD s.usage_counts u.template 0) s.templates ∧
    s' = { s with usage_counts := dictIncr s.usage_counts t.template } := by
  obtain ⟨dom, tpls, uc⟩ := s
  cases tpls with
  | nil => simp [get_next_template] at h
  | cons t0 ts =>
    rw [get_next_none_eq] at h
    simp only [Option.some.injEq, Prod.mk.injEq] at h
    set usage := fun t : PromptTemplate => dictGetD uc t.template 0 with husage
    set m := minUsage usage (t0 :: ts) with hm
    set least := (t0 :: ts).filter (fun t => usage t = m) with hleast
    have hlne : least ≠ [] := by
      rcases exists_minUsage usage (t0 :: ts) (by simp) with ⟨x, hx, hfx⟩
      have : x ∈ least := by
        rw [hleast]
        exact List.mem_filter.2 ⟨hx, by simp [hfx]⟩
      exact List.ne_nil_of_mem this
    have hlpos : 0 < least.length := List.length_pos.2 hlne
    have hidx : c % least.length < least.length := Nat.mod_lt _ hlpos
    have hchosen : least.getD (c % least.length) t0 ∈ least :=
      getD_mem_of_lt least _ t0 hidx
    have hc1 : least.getD (c % least.length) t0 ∈ t0 :: ts :=
      (List.mem_filter.1 hchosen).1
    have hc2 : usage (least.getD (c % least.length) t0) = m := by
      have := (List.mem_filter.1 hchosen).2
      simpa using this
    obtain ⟨h1, h2⟩ := h
    rw [← h1]
    exact ⟨hc1, hc2, h2.symm⟩

theorem get_next_none_total (s : RotState) (c : Nat) (hne : s.templates ≠ []) :
    ∃ t s', get_next_template s none c = some (t, s') := by
  obtain ⟨dom, tpls, uc⟩ := s
  cases tpls with
  | nil => simp at hne
  | cons t0 ts => exact ⟨_, _, get_next_none_eq dom t0 ts uc c⟩

/-! ## Characterization of `get_next_template` with any category argument -/

theorem get_next_some_eq (dom : String) (t0 : PromptTemplate)
    (ts : List PromptTemplate) (uc : List (String × Nat)) (cstr : String) (c : Nat) :
    get_next_template ⟨dom, t0 :: ts, uc⟩ (some cstr) c =
      (let candidates :=
        if cstr = "" then t0 :: ts
        else
          if ((t0 :: ts).filter (fun t => t.category = cstr)).isEmpty then t0 :: ts
          else (t0 :: ts).filter (fun t => t.category = cstr)
       let usage := fun t : PromptTemplate => dictGetD uc t.template 0
       let m := minUsage usage candidates
       let least := candidates.filter (fun t => usage t = m)
       let chosen := least.getD (c % least.length) t0
       some (chosen, ⟨dom, t0 :: ts, dictIncr uc chosen.template⟩)) := rfl

theorem chosenLeast_mem (uc : List (String × Nat)) (cands : List PromptTemplate)
    (t0 : PromptTemplate) (c : Nat) (hne : cands ≠ []) :
    (cands.filter (fun t => dictGetD uc t.template 0 =
        minUsage (fun u => dictGetD uc u.template 0) cands)).getD
      (c % (cands.filter (fun t => dictGetD uc t.template 0 =
        minUsage (fun u => dictGetD uc u.template 0) cands)).length) t0 ∈ cands := by
  have hlne : cands.filter (fun t => dictGetD uc t.template 0 =
      minUsage (fun u => dictGetD uc u.template 0) cands) ≠ [] := by
    rcases exists_minUsage (fun u => dictGetD uc u.template 0) cands hne
      with ⟨x, hx, hfx⟩
    exact List.ne_nil_of_mem (List.mem_filter.2 ⟨hx, by simp [hfx]⟩)
  exact (List.mem_filter.1
    (getD_mem_of_lt _ _ t0 (Nat.mod_lt _ (List.length_pos.2 hlne)))).1

theorem get_next_candidates_spec (dom : String) (t0 : PromptTemplate)
    (ts : List PromptTemplate) (uc : List (String × Nat)) (c : Nat)
    (cands : List PromptTemplate) (t : PromptTemplate) (s' : RotState)
    (hne : cands ≠ []) (hsub : cands ⊆ t0 :: ts)
    (h : (let m := minUsage (fun u => dictGetD uc u.template 0) cands
          let least := cands.filter (fun t => dictGetD uc t.template 0 = m)
          let chosen := least.getD (c % least.length) t0
          some (chosen, (⟨dom, t0 :: ts, dictIncr uc chosen.template⟩ : RotState)))
        = some (t, s')) :
    t ∈ t0 :: ts ∧ s' = ⟨dom, t0 :: ts, dictIncr uc t.template⟩ := by
  simp only [Option.some.injEq, Prod.mk.injEq] at h
  obtain ⟨h1, h2⟩ := h
  rw [← h1]
  exact ⟨hsub (chosenLeast_mem uc cands t0 c hne), h2.symm⟩

/-- Every successful call, whatever its category argument: the returned
template belongs to the catalog and the post-state is the pre-state with
exactly that template's counter incremented. -/
theorem get_next_any_spec (s : RotState) (category : Option String) (c : Nat)
    (t : PromptTemplate) (s' : RotState)
    (h : get_next_template s category c = some (t, s')) :
    t ∈ s.templates ∧
    s' = { s with usage_counts := dictIncr s.usage_counts t.template } := by
  obtain ⟨dom, tpls, uc⟩ := s
  cases tpls with
  | nil => exact Option.noConfusion h
  | cons t0 ts =>
    cases category with
    | none =>
      obtain ⟨h1, _, h3⟩ := get_next_none_spec ⟨dom, t0 :: ts, uc⟩ c t s' h
      exact ⟨h1, h3⟩
    | some cstr =>
      rw [get_next_some_eq] at h
      by_cases hc0 : cstr = ""
      · rw [if_pos hc0] at h
        exact get_next_candidates_spec dom t0 ts uc c (t0 :: ts) t s'
          (by simp) (fun x hx => hx) h
      · rw [if_neg hc0] at h
        by_cases hfe : ((t0 :: ts).filter (fun t => t.category = cstr)).isEmpty = true
        · rw [if_pos hfe] at h
          exact get_next_candidates_spec dom t0 ts uc c (t0 :: ts) t s'
            (by simp) (fun x hx => hx) h
        · rw [if_neg hfe] at h
          have hne : (t0 :: ts).filter (fun t => t.category = cstr) ≠ [] := by
            intro he
            rw [he] at hfe
            exact hfe rfl
          exact get_next_candidates_spec dom t0 ts uc c _ t s'
            hne (List.Sublist.subset (List.filter_sublist _)) h

/-- A call on a non-empty catalog always succeeds, whatever the category
argument (unknown or empty-matching categories fall back to the full
catalog). -/
theorem get_next_any_isSome (s : RotState) (category : Option String) (c : Nat)
    (hne : s.templates ≠ []) : (get_next_template s category c).isSome = true := by
  obtain ⟨dom, tpls, uc⟩ := s
  cases tpls with
  | nil => simp at hne
  | cons t0 ts =>
    cases category with
    | none => rfl
    | some cstr =>
      rw [get_next_some_eq]
      by_cases hc0 : cstr = ""
      · rw [if_pos hc0]
        rfl
      · rw [if_neg hc0]
        by_cases hfe : ((t0 :: ts).filter (fun t => t.category = cstr)).isEmpty = true
        · rw [if_pos hfe]
          rfl
        · rw [if_neg hfe]
          rfl

/-! ## The rotator invariant -/

/-- Invariant maintained by loading and rotation: usage-count keys are
unique, every catalog entry's text is a key, every key is some catalog
entry's text, and all counters are within 1 of one another. -/
structure RotInv (s : RotState) : Prop where
  nodupKeys : (dictKeys s.usage_counts).Nodup
  cover : ∀ t ∈ s.templates, t.template ∈ dictKeys s.usage_counts
  surj : ∀ k ∈ dictKeys s.usage_counts, ∃ t ∈ s.templates, t.template = k
  bal : ∀ x ∈ dictValues s.usage_counts, ∀ y ∈ dictValues s.usage_counts, x ≤ y + 1

theorem minUsage_le_values (s : RotState) (hInv : RotInv s) :
    ∀ v ∈ dictValues s.usage_counts,
      minUsage (fun u => dictGetD s.usage_counts u.template 0) s.templates ≤ v := by
  intro v hv
  rcases List.mem_map.1 hv with ⟨p, hp, hpv⟩
  have hpe : (p.1, v) ∈ s.usage_counts := by
    have : (p.1, v) = p := by
      cases p
      simp only at hpv
      simp [hpv]
    rwa [this]
  have hk : p.1 ∈ dictKeys s.usage_counts := List.mem_map_of_mem Prod.fst hp
  rcases hInv.surj p.1 hk with ⟨t, ht, htk⟩
  have hgt : dictGetD s.usage_counts t.template 0 = v := by
    rw [htk]
    exact getD_of_mem_nodup _ _ _ _ hInv.nodupKeys hpe
  calc minUsage (fun u => dictGetD s.usage_counts u.template 0) s.templates
      ≤ dictGetD s.usage_counts t.template 0 := minUsage_le _ _ t ht
    _ = v := hgt

theorem minUsage_mem_values (s : RotState) (hInv : RotInv s) (hne : s.templates ≠ []) :
    minUsage (fun u => dictGetD s.usage_counts u.template 0) s.templates ∈
      dictValues s.usage_counts := by
  rcases exists_minUsage (fun u => dictGetD s.usage_counts u.template 0) s.templates hne
    with ⟨t, ht, htm⟩
  have hk := hInv.cover t ht
  have hmem := dictGetD_mem s.usage_counts t.template 0 hk
  rw [htm] at hmem
  exact mem_values_of_mem _ _ _ hmem

/-- Master step lemma: one successful uncategorized call increments exactly
the returned template's counter, preserves the catalog, keys, and the
invariant, and raises the counter total by one. -/
theorem get_next_step (s : RotState) (c : Nat) (t : PromptTemplate) (s' : RotState)
    (hInv : RotInv s) (h : get_next_template s none c = some (t, s')) :
    s'.templates = s.templates ∧
    s'.usage_counts = dictIncr s.usage_counts t.template ∧
    t ∈ s.templates ∧
    dictGetD s'.usage_counts t.template 0 = dictGetD s.usage_counts t.template 0 + 1 ∧
    (∀ k, k ≠ t.template → dictGetD s'.usage_counts k 0 = dictGetD s.usage_counts k 0) ∧
    dictKeys s'.usage_counts = dictKeys s.usage_counts ∧
    sumValues s'.usage_counts = sumValues s.usage_counts + 1 ∧
    RotInv s' := by
  obtain ⟨hmem, hmin, hs'⟩ := get_next_none_spec s c t s' h
  have hkey : t.template ∈ dictKeys s.usage_counts := hInv.cover t hmem
  have hne : s.templates ≠ [] := List.ne_nil_of_mem hmem
  subst hs'
  refine ⟨rfl, rfl, hmem, dictGetD_incr_self _ _ _ hkey,
    fun k hk => dictGetD_incr_other _ _ _ _ hk, dictKeys_incr _ _,
    sumValues_incr _ _ hkey, ?_⟩
  constructor
  · show (dictKeys (dictIncr s.usage_counts t.template)).Nodup
    rw [dictKeys_incr]
    exact hInv.nodupKeys
  · intro u hu
    show u.template ∈ dictKeys (dictIncr s.usage_counts t.template)
    rw [dictKeys_incr]
    exact hInv.cover u hu
  · intro k hk
    rw [show dictKeys (dictIncr s.usage_counts t.template) =
      dictKeys s.usage_counts from dictKeys_incr _ _] at hk
    exact hInv.surj k hk
  · intro x hx y hy
    have hlow := minUsage_le_values s hInv
    have hupp : ∀ v ∈ dictValues s.usage_counts,
        v ≤ minUsage (fun u => dictGetD s.usage_counts u.template 0) s.templates + 1 :=
      fun v hv => hInv.bal v hv _ (minUsage_mem_values s hInv hne)
    rcases values_incr s.usage_counts t.template x hx with hxo | hxe <;>
      rcases values_incr s.usage_counts t.template y hy with hyo | hye
    · exact hInv.bal x hxo y hyo
    · have h1 := hupp x hxo
      rw [hye, hmin]
      omega
    · have h1 := hlow y hyo
      rw [hxe, hmin]
      omega
    · rw [hxe, hye]
      omega

/-! ## Properties of construction (`__init__` / `_load_templates`) -/

theorem loadAux_templates (dom : String) (s : RotState) (ps : List (String × String)) :
    (loadAux dom s ps).templates =
      s.templates ++ ps.map (fun p => ⟨p.1, p.2, dom⟩) := by
  induction ps generalizing s with
  | nil => simp [loadAux]
  | cons p ps ih => simp [loadAux, ih, loadStep]

theorem loadAux_keys_mem (dom : String) (s : RotState) (ps : List (String × String))
    (k : String) :
    k ∈ dictKeys (loadAux dom s ps).usage_counts ↔
      k ∈ dictKeys s.usage_counts ∨ k ∈ ps.map Prod.fst := by
  induction ps generalizing s with
  | nil => simp [loadAux]
  | cons p ps ih =>
    simp only [loadAux, List.map_cons, List.mem_cons]
    rw [ih]
    simp only [loadStep, mem_dictKeys_setZero]
    tauto

theorem loadAux_keys_nodup (dom : String) (s : RotState) (ps : List (String × String))
    (h : (dictKeys s.usage_counts).Nodup) :
    (dictKeys (loadAux dom s ps).usage_counts).Nodup := by
  induction ps generalizing s with
  | nil => exact h
  | cons p ps ih =>
    exact ih _ (nodup_dictKeys_setZero _ _ h)

theorem loadAux_values_zero (dom : String) (s : RotState) (ps : List (String × String))
    (h : ∀ v ∈ dictValues s.usage_counts, v = 0) :
    ∀ v ∈ dictValues (loadAux dom s ps).usage_counts, v = 0 := by
  induction ps generalizing s with
  | nil => exact h
  | cons p ps ih =>
    refine ih _ (fun v hv => ?_)
    rcases values_setZero s.usage_counts p.1 v hv with h' | h'
    · exact h v h'
    · exact h'

theorem load_templates_eq (dom : String) (pairs : List (String × String)) :
    (loadTemplates dom pairs).templates = pairs.map (fun p => ⟨p.1, p.2, dom⟩) := by
  simpa using loadAux_templates dom ⟨dom, [], []⟩ pairs

theorem load_keys_mem (dom : String) (pairs : List (String × String)) (k : String) :
    k ∈ dictKeys (loadTemplates dom pairs).usage_counts ↔ k ∈ pairs.map Prod.fst := by
  have := loadAux_keys_mem dom ⟨dom, [], []⟩ pairs k
  simpa [loadTemplates] using this

theorem load_keys_nodup (dom : String) (pairs : List (String × String)) :
    (dictKeys (loadTemplates dom pairs).usage_counts).Nodup :=
  loadAux_keys_nodup dom ⟨dom, [], []⟩ pairs (by simp)

theorem load_values_zero (dom : String) (pairs : List (String × String)) :
    ∀ v ∈ dictValues (loadTemplates dom pairs).usage_counts, v = 0 :=
  loadAux_values_zero dom ⟨dom, [], []⟩ pairs (by simp)

theorem load_inv (dom : String) (pairs : List (String × String)) :
    RotInv (loadTemplates dom pairs) := by
  constructor
  · exact load_keys_nodup dom pairs
  · intro t ht
    rw [load_templates_eq] at ht
    rcases List.mem_map.1 ht with ⟨p, hp, hpt⟩
    rw [load_keys_mem]
    rw [← hpt]
    exact List.mem_map_of_mem Prod.fst hp
  · intro k hk
    rw [load_keys_mem] at hk
    rcases List.mem_map.1 hk with ⟨p, hp, hpk⟩
    refine ⟨⟨p.1, p.2, dom⟩, ?_, hpk⟩
    rw [load_templates_eq]
    exact List.mem_map_of_mem _ hp
  · intro x hx y hy
    rw [load_values_zero dom pairs x hx]
    omega

theorem load_sum_zero (dom : String) (pairs : List (String × String)) :
    sumValues (loadTemplates dom pairs).usage_counts = 0 :=
  List.sum_eq_zero (load_values_zero dom pairs)

/-! ## Properties of `reset_counts` -/

theorem reset_templates (s : RotState) : (reset_counts s).templates = s.templates := rfl

theorem reset_keys (s : RotState) :
    dictKeys (reset_counts s).usage_counts = dictKeys s.usage_counts := by
  simp [reset_counts, dictKeys, List.map_map]

theorem reset_values_zero (s : RotState) :
    ∀ v ∈ dictValues (reset_counts s).usage_counts, v = 0 := by
  intro v hv
  simp only [reset_counts, dictValues, List.map_map] at hv
  rcases List.mem_map.1 hv with ⟨p, _, hp⟩
  exact hp.symm

theorem reset_sum_zero (s : RotState) :
    sumValues (reset_counts s).usage_counts = 0 :=
  List.sum_eq_zero (reset_values_zero s)

theorem reset_inv (s : RotState) (hInv : RotInv s) : RotInv (reset_counts s) := by
  constructor
  · rw [reset_keys]
    exact hInv.nodupKeys
  · intro t ht
    rw [reset_keys]
    exact hInv.cover t ht
  · intro k hk
    rw [reset_keys] at hk
    exact hInv.surj k hk
  · intro x hx y hy
    rw [reset_values_zero s x hx]
    omega

/-! ## Runs of uncategorized calls -/

theorem runCalls_nil (s : RotState) : runCalls [] s = s := rfl

theorem runCalls_cons (c : Nat) (cs : List Nat) (s : RotState) :
    runCalls (c :: cs) s =
      runCalls cs
        (match get_next_template s none c with
         | some (_, st') => st'
         | none => s) := rfl

theorem runCalls_inv (choices : List Nat) (s : RotState) (hInv : RotInv s) :
    RotInv (runCalls choices s) ∧ (runCalls choices s).templates = s.templates := by
  induction choices generalizing s with
  | nil => exact ⟨hInv, rfl⟩
  | cons c cs ih =>
    rw [runCalls_cons]
    cases hg : get_next_template s none c with
    | none => simpa using ih s hInv
    | some ts' =>
      obtain ⟨t, s'⟩ := ts'
      obtain ⟨htp, _, _, _, _, _, _, hInv'⟩ := get_next_step s c t s' hInv hg
      have := ih s' hInv'
      exact ⟨this.1, by rw [this.2, htp]⟩

theorem runCalls_sum (choices : List Nat) (s : RotState) (hInv : RotInv s)
    (hne : s.templates ≠ []) :
    sumValues (runCalls choices s).usage_counts =
      sumValues s.usage_counts + choices.length := by
  induction choices generalizing s with
  | nil => simp [runCalls]
  | cons c cs ih =>
    rw [runCalls_cons]
    obtain ⟨t, s', hg⟩ := get_next_none_total s c hne
    obtain ⟨htp, _, _, _, _, _, hsum, hInv'⟩ := get_next_step s c t s' hInv hg
    rw [hg]
    have := ih s' hInv' (by rw [htp]; exact hne)
    rw [this, hsum]
    simp only [List.length_cons]
    omega

theorem runCallsCat_nil (s : RotState) : runCallsCat [] s = s := rfl

theorem runCallsCat_cons (pc : Option String × Nat) (calls : List (Option String × Nat))
    (s : RotState) :
    runCallsCat (pc :: calls) s =
      runCallsCat calls
        (match get_next_template s pc.1 pc.2 with
         | some (_, st') => st'
         | none => s) := rfl

/-- Any run of calls — categorized or not, successful or raising — leaves
the template catalog and the counter key set unchanged. -/
theorem runCallsCat_frame (calls : List (Option String × Nat)) (s : RotState) :
    (runCallsCat calls s).templates = s.templates ∧
    dictKeys (runCallsCat calls s).usage_counts = dictKeys s.usage_counts := by
  induction calls generalizing s with
  | nil => exact ⟨rfl, rfl⟩
  | cons pc calls ih =>
    rw [runCallsCat_cons]
    cases hg : get_next_template s pc.1 pc.2 with
    | none => simpa using ih s
    | some ts' =>
      obtain ⟨t, s'⟩ := ts'
      obtain ⟨_, hs'⟩ := get_next_any_spec s pc.1 pc.2 t s' hg
      subst hs'
      have := ih { s with usage_counts := dictIncr s.usage_counts t.template }
      exact ⟨this.1, by rw [this.2]; exact dictKeys_incr _ _⟩

/-- Any run of calls on a covered, non-empty catalog adds exactly one to
the counter total per call — every call succeeds, whatever its category
argument. -/
theorem runCallsCat_sum (calls : List (Option String × Nat)) (s : RotState)
    (hcov : ∀ t ∈ s.templates, t.template ∈ dictKeys s.usage_counts)
    (hne : s.templates ≠ []) :
    sumValues (runCallsCat calls s).usage_counts =
      sumValues s.usage_counts + calls.length := by
  induction calls generalizing s with
  | nil => simp [runCallsCat]
  | cons pc calls ih =>
    rw [runCallsCat_cons]
    have hs := get_next_any_isSome s pc.1 pc.2 hne
    cases hg : get_next_template s pc.1 pc.2 with
    | none =>
      rw [hg] at hs
      simp at hs
    | some ts' =>
      obtain ⟨t, s'⟩ := ts'
      obtain ⟨hmem, hs'⟩ := get_next_any_spec s pc.1 pc.2 t s' hg
      subst hs'
      have hkey := hcov t hmem
      have hcov' : ∀ u ∈ s.templates,
          u.template ∈ dictKeys (dictIncr s.usage_counts t.template) := by
        intro u hu
        rw [dictKeys_incr]
        exact hcov u hu
      have hrec := ih { s with usage_counts := dictIncr s.usage_counts t.template }
        hcov' hne
      show sumValues (runCallsCat calls
        { s with usage_counts := dictIncr s.usage_counts t.template }).usage_counts =
        sumValues s.usage_counts + (pc :: calls).length
      rw [hrec]
      show sumValues (dictIncr s.usage_counts t.template) + calls.length = _
      rw [sumValues_incr _ _ hkey]
      simp only [List.length_cons]
      omega

/-! ## Claim theorems about the rotator -/

/-- C1: for a rotator whose catalog holds `k` distinct templates with all
usage counters initialized to zero, after any number `N` of
`get_next_template()` calls with no category argument and no intervening
reset — whatever random tie-breaks occur — any two of the `k` usage
counters differ by at most 1; in particular the maximum usage count minus
the minimum usage count is at most 1. -/
theorem C1_rotator_balance (dom : String) (pairs : List (String × String))
    (hdistinct : (pairs.map Prod.fst).Nodup) (choices : List Nat) :
    ∀ x ∈ templateUsages (runCalls choices (loadTemplates dom pairs)),
      ∀ y ∈ templateUsages (runCalls choices (loadTemplates dom pairs)),
        x - y ≤ 1 := by
  intro x hx y hy
  obtain ⟨hInv, -⟩ := runCalls_inv choices _ (load_inv dom pairs)
  have hval : ∀ z ∈ templateUsages (runCalls choices (loadTemplates dom pairs)),
      z ∈ dictValues (runCalls choices (loadTemplates dom pairs)).usage_counts := by
    intro z hz
    rcases List.mem_map.1 hz with ⟨t, ht, htz⟩
    have hk := hInv.cover t ht
    have hm := dictGetD_mem _ t.template 0 hk
    rw [htz] at hm
    exact mem_values_of_mem _ _ _ hm
  have := hInv.bal x (hval x hx) y (hval y hy)
  omega

/-- C1 witness: a concrete 3-template catalog and 5 concrete calls. -/
theorem C1_rotator_balance_witness :
    (([("A", "p"), ("B", "p"), ("C", "q")].map Prod.fst).Nodup) ∧
    (∀ x ∈ templateUsages (runCalls [0, 1, 2, 0, 5]
        (loadTemplates "asm" [("A", "p"), ("B", "p"), ("C", "q")])),
      ∀ y ∈ templateUsages (runCalls [0, 1, 2, 0, 5]
        (loadTemplates "asm" [("A", "p"), ("B", "p"), ("C", "q")])),
        x - y ≤ 1) :=
  ⟨by decide, C1_rotator_balance "asm" _ (by decide) [0, 1, 2, 0, 5]⟩

/-- C5 counterexample: constructing a rotator over an empty template
catalog succeeds — the initializer runs to completion and returns a state
with an empty catalog and empty counter table — contradicting the claim
that construction fails loudly; the failure only happens at the later
`get_next_template` call (`ValueError`, modeled as `none`). -/
theorem C5_counterexample :
    (loadTemplates "asm" []).templates = [] ∧
    (loadTemplates "asm" []).usage_counts = [] ∧
    get_next_template (loadTemplates "asm" []) none 0 = none :=
  ⟨rfl, rfl, rfl⟩

/-- C5 amended: constructing a rotator for a domain with zero templates
succeeds (`__init__` performs no validation); the misconfiguration is
surfaced loudly at the first `get_next_template` call, which raises
`ValueError` (modeled as `none`) for every category argument and every
random choice rather than returning an empty or garbage template. -/
theorem C5_error_surfaced_at_get (s : RotState) (category : Option String)
    (choice : Nat) (h : s.templates = []) :
    get_next_template s category choice = none := by
  obtain ⟨dom, tpls, uc⟩ := s
  have h' : tpls = [] := h
  subst h'
  rfl

/-- C5 witness: the amended theorem applied to the concretely constructed
empty-catalog rotator. -/
theorem C5_error_surfaced_at_get_witness :
    (loadTemplates "asm" []).templates = [] ∧
    get_next_template (loadTemplates "asm" []) (some "perspective") 7 = none :=
  ⟨rfl, C5_error_surfaced_at_get _ (some "perspective") 7 rfl⟩

/-- C9: every successful `get_next_template` call — with or without a
category argument — from a state reached by any sequence of `N` prior
calls (themselves categorized or not) on a freshly constructed rotator,
increments exactly the returned template's usage counter by exactly 1,
leaves every other counter, the counter key set, and the whole template
catalog unchanged, and the sum of all usage counters equals the number of
successful calls since construction (`N` before the call, `N + 1` after) —
and, after a `reset_counts`, equals the number of successful calls since
that reset (on a non-empty catalog every call succeeds, whatever its
category). -/
theorem C9_get_next_frame_and_sum (dom : String) (pairs : List (String × String))
    (calls : List (Option String × Nat)) (category : Option String) (c : Nat)
    (t : PromptTemplate) (s' : RotState)
    (hne : pairs ≠ [])
    (h : get_next_template (runCallsCat calls (loadTemplates dom pairs)) category c =
      some (t, s')) :
    s'.templates = (runCallsCat calls (loadTemplates dom pairs)).templates ∧
    dictGetD s'.usage_counts t.template 0 =
      dictGetD (runCallsCat calls (loadTemplates dom pairs)).usage_counts t.template 0
        + 1 ∧
    (∀ k, k ≠ t.template →
      dictGetD s'.usage_counts k 0 =
        dictGetD (runCallsCat calls (loadTemplates dom pairs)).usage_counts k 0) ∧
    dictKeys s'.usage_counts =
      dictKeys (runCallsCat calls (loadTemplates dom pairs)).usage_counts ∧
    sumValues (runCallsCat calls (loadTemplates dom pairs)).usage_counts =
      calls.length ∧
    sumValues s'.usage_counts = calls.length + 1 ∧
    (∀ calls2 : List (Option String × Nat),
      sumValues (runCallsCat calls2
        (reset_counts (runCallsCat calls (loadTemplates dom pairs)))).usage_counts =
        calls2.length) := by
  obtain ⟨hTp, hKeys⟩ := runCallsCat_frame calls (loadTemplates dom pairs)
  have hcov0 := (load_inv dom pairs).cover
  have hcov : ∀ u ∈ (runCallsCat calls (loadTemplates dom pairs)).templates,
      u.template ∈ dictKeys (runCallsCat calls (loadTemplates dom pairs)).usage_counts := by
    intro u hu
    rw [hKeys]
    exact hcov0 u (hTp ▸ hu)
  have hne' : (runCallsCat calls (loadTemplates dom pairs)).templates ≠ [] := by
    rw [hTp, load_templates_eq]
    simpa using hne
  obtain ⟨hmem, hs'⟩ := get_next_any_spec _ category c t s' h
  have hkey := hcov t hmem
  have hsum0 : sumValues (runCallsCat calls (loadTemplates dom pairs)).usage_counts =
      calls.length := by
    have := runCallsCat_sum calls (loadTemplates dom pairs) hcov0
      (by rw [load_templates_eq]; simpa using hne)
    rwa [load_sum_zero, Nat.zero_add] at this
  subst hs'
  refine ⟨rfl, dictGetD_incr_self _ _ _ hkey,
    fun k hk => dictGetD_incr_other _ _ _ _ hk, dictKeys_incr _ _, hsum0,
    ?_, ?_⟩
  · show sumValues (dictIncr
      (runCallsCat calls (loadTemplates dom pairs)).usage_counts t.template) =
      calls.length + 1
    rw [sumValues_incr _ _ hkey, hsum0]
  · intro calls2
    have hcovR : ∀ u ∈ (runCallsCat calls (loadTemplates dom pairs)).templates,
        u.template ∈ dictKeys
          (reset_counts (runCallsCat calls (loadTemplates dom pairs))).usage_counts := by
      intro u hu
      rw [reset_keys]
      exact hcov u hu
    have := runCallsCat_sum calls2
      (reset_counts (runCallsCat calls (loadTemplates dom pairs))) hcovR
      (by rw [reset_templates]; exact hne')
    rwa [reset_sum_zero, Nat.zero_add] at this

/-- C9 witness: a categorized call (`category = "p"`) after a prior
categorized call (`category = "q"`) on a two-template catalog. -/
theorem C9_get_next_frame_and_sum_witness :
    ([("A", "p"), ("B", "q")] : List (String × String)) ≠ [] ∧
    get_next_template
      (runCallsCat [(some "q", 0)] (loadTemplates "asm" [("A", "p"), ("B", "q")]))
      (some "p") 0 =
      some (⟨"A", "p", "asm"⟩,
        ⟨"asm", [⟨"A", "p", "asm"⟩, ⟨"B", "q", "asm"⟩], [("A", 1), ("B", 1)]⟩) ∧
    sumValues (RotState.mk "asm" [⟨"A", "p", "asm"⟩, ⟨"B", "q", "asm"⟩]
      [("A", 1), ("B", 1)]).usage_counts = [(some "q", 0)].length + 1 :=
  ⟨by decide, by rfl,
    (C9_get_next_frame_and_sum "asm" [("A", "p"), ("B", "q")] [(some "q", 0)]
      (some "p") 0 ⟨"A", "p", "asm"⟩
      ⟨"asm", [⟨"A", "p", "asm"⟩, ⟨"B", "q", "asm"⟩], [("A", 1), ("B", 1)]⟩
      (by decide) (by rfl)).2.2.2.2.2.1⟩

/-- C10: usage counters are keyed by template text, not by catalog entry:
the counter table's keys are exactly the distinct template strings (without
duplicates), so the table never has more entries than the catalog, has
strictly fewer whenever two catalog entries share their text (they share
one counter), while `get_stats` reports the full catalog length as
`total_templates`. -/
theorem C10_counters_keyed_by_text (dom : String) (pairs : List (String × String)) :
    (dictKeys (loadTemplates dom pairs).usage_counts).Nodup ∧
    (∀ k, k ∈ dictKeys (loadTemplates dom pairs).usage_counts ↔
      k ∈ pairs.map Prod.fst) ∧
    (loadTemplates dom pairs).usage_counts.length ≤ pairs.length ∧
    (¬ (pairs.map Prod.fst).Nodup →
      (loadTemplates dom pairs).usage_counts.length < pairs.length) ∧
    (get_stats (loadTemplates dom pairs)).total_templates = pairs.length := by
  have hnd := load_keys_nodup dom pairs
  have hmem := load_keys_mem dom pairs
  have hsub : dictKeys (loadTemplates dom pairs).usage_counts ⊆ pairs.map Prod.fst :=
    fun k hk => (hmem k).1 hk
  have hlenkeys : (loadTemplates dom pairs).usage_counts.length =
      (dictKeys (loadTemplates dom pairs).usage_counts).length :=
    (List.length_map _ _).symm
  refine ⟨hnd, hmem, ?_, ?_, ?_⟩
  · rw [hlenkeys]
    calc (dictKeys (loadTemplates dom pairs).usage_counts).length
        ≤ (pairs.map Prod.fst).length :=
          (List.subperm_of_subset hnd hsub).length_le
      _ = pairs.length := List.length_map _ _
  · intro hdup
    rw [hlenkeys]
    have hsub' : dictKeys (loadTemplates dom pairs).usage_counts ⊆
        (pairs.map Prod.fst).dedup :=
      fun k hk => List.mem_dedup.2 (hsub hk)
    have h1 : (dictKeys (loadTemplates dom pairs).usage_counts).length ≤
        (pairs.map Prod.fst).dedup.length :=
      (List.subperm_of_subset hnd hsub').length_le
    have h2 : (pairs.map Prod.fst).dedup.length < (pairs.map Prod.fst).length := by
      have hsl := List.dedup_sublist (pairs.map Prod.fst)
      rcases Nat.lt_or_ge (pairs.map Prod.fst).dedup.length
        (pairs.map Prod.fst).length with hlt | hge
      · exact hlt
      · exfalso
        have heq : (pairs.map Prod.fst).dedup = pairs.map Prod.fst :=
          hsl.eq_of_length (Nat.le_antisymm hsl.length_le hge)
        exact hdup (heq ▸ List.nodup_dedup _)
    have h3 := List.length_map pairs Prod.fst
    omega
  · rw [get_stats, load_templates_eq]
    simp

/-- C10 witness: a catalog with a duplicated template text has fewer
counters than catalog entries. -/
theorem C10_counters_keyed_by_text_witness :
    ¬ (([("A", "p"), ("A", "q"), ("B", "p")].map Prod.fst).Nodup) ∧
    (loadTemplates "asm" [("A", "p"), ("A", "q"), ("B", "p")]).usage_counts.length
      < 3 ∧
    (get_stats (loadTemplates "asm"
      [("A", "p"), ("A", "q"), ("B", "p")])).total_templates = 3 :=
  ⟨by decide,
   (C10_counters_keyed_by_text "asm" [("A", "p"), ("A", "q"), ("B", "p")]).2.2.2.1
     (by decide),
   (C10_counters_keyed_by_text "asm" [("A", "p"), ("A", "q"), ("B", "p")]).2.2.2.2⟩

/-! ## Relevance scorer selection (`filter_items_for_task`) -/

/-- Insertion into a descending-score list, placed before the first element
whose score is less than or equal to the inserted one.  Elements are
inserted from the right end of the input, so equal-score elements keep
their original relative order — the embedding of the stability guarantee of
Python's `list.sort`. -/
def insertDesc {α : Type} (score : α → Nat) (x : α) : List α → List α
  | [] => [x]
  | y :: ys => if score y ≤ score x then x :: y :: ys else y :: insertDesc score x ys

/-- Stable descending sort by score: the embedding of
`scored_items.sort(key=lambda x: x[0], reverse=True)`. -/
def stableSortDesc {α : Type} (score : α → Nat) : List α → List α
  | [] => []
  | x :: xs => insertDesc score x (stableSortDesc score xs)

/-! ### The cutoff computation `int(len(scored_items) * retain_fraction)`

The retain fractions are Python float literals (IEEE-754 binary64), so the
cutoff is the truncation of a rounded double product, not an exact rational
floor.  A fraction in `[1/2, 1)` is the double `sig / 2^53` with
`2^52 ≤ sig < 2^53`; the product with the integer list length is the exact
integer `len * sig` scaled by `2^-53`, rounded to 53 significant bits with
ties to even, then truncated toward zero. -/

/-- Number of binary digits of `n` (0 for 0), by fuelled structural
recursion so that concrete runs reduce inside the kernel. -/
def bitLenAux : Nat → Nat → Nat
  | 0, _ => 0
  | fuel + 1, n => if n = 0 then 0 else bitLenAux fuel (n / 2) + 1

/-- Number of binary digits of `n`. -/
def bitLen (n : Nat) : Nat := bitLenAux n n

/-- Round `n / 2^k` (`k ≥ 1`) to the nearest integer, ties to even. -/
def roundMantissa (n k : Nat) : Nat :=
  let q := n / 2 ^ k
  let r := n % 2 ^ k
  let half := 2 ^ (k - 1)
  if half < r then q + 1
  else if r < half then q
  else if q % 2 = 0 then q else q + 1

/-- `int(S * d)` for a Python int `S` and a positive double
`d = sig / 2^53`: form the exact product `S * sig * 2^-53`, round it to 53
significant bits (round-to-nearest, ties to even — the IEEE-754 binary64
multiplication), then truncate toward zero.  Products of at most 53 bits
are exact.  Cross-checked against CPython: it agrees with `int(S * f)` for
`f ∈ {0.75, 0.6, 0.7}` on every `S` up to 500000 (in particular
`pyIntTimesDouble 170 pySig07 = 118 = int(170 * 0.7)`, one less than the
exact `floor(170 * 7/10) = 119`). -/
def pyIntTimesDouble (S sig : Nat) : Nat :=
  let n := S * sig
  let bl := bitLen n
  if bl ≤ 53 then n / 2 ^ 53
  else roundMantissa n (bl - 53) * 2 ^ (bl - 53) / 2 ^ 53

/-- The 2^53-scaled significand of the double nearest `0.75` (exact:
`0.75 * 2^53`). -/
def pySig075 : Nat := 6755399441055744

/-- The 2^53-scaled significand of the double nearest `0.6`
(`0.6 * 2^53 = 5404319552844595.2`, rounded to nearest). -/
def pySig06 : Nat := 5404319552844595

/-- The 2^53-scaled significand of the double nearest `0.7`
(`0.7 * 2^53 = 6305039478318694.4`, rounded to nearest). -/
def pySig07 : Nat := 6305039478318694

/-- `filter_items_for_task`, common shape of `AsmDocGenerator`
(fraction `0.75`), `AsmDebugGenerator` (`0.7`) and `AsmHookGenerator`
(`0.6`): build `(score, item)` pairs, sort them descending by score
(stable), compute `cutoff = int(len(scored_items) * retain_fraction)`
under double arithmetic — `retainSig` is the 2^53-scaled significand of
the profile's retain-fraction double (`pySig075` / `pySig07` / `pySig06`)
— and return the items of the sorted prefix up to `max(cutoff, 100)`. -/
def filter_items_for_task {α : Type} (score : α → Nat) (retainSig : Nat)
    (items : List α) : List α :=
  let scored := items.map (fun it => (score it, it))
  let sortedScored := stableSortDesc Prod.fst scored
  let cutoff := pyIntTimesDouble items.length retainSig
  (sortedScored.take (Nat.max cutoff 100)).map Prod.snd

theorem length_insertDesc {α : Type} (score : α → Nat) (x : α) (l : List α) :
    (insertDesc score x l).length = l.length + 1 := by
  induction l with
  | nil => rfl
  | cons y ys ih =>
    by_cases h : score y ≤ score x
    · simp [insertDesc, h]
    · simp [insertDesc, h, ih]

theorem length_stableSortDesc {α : Type} (score : α → Nat) (l : List α) :
    (stableSortDesc score l).length = l.length := by
  induction l with
  | nil => rfl
  | cons x xs ih => simp [stableSortDesc, length_insertDesc, ih]

theorem mem_insertDesc {α : Type} (score : α → Nat) (x a : α) (l : List α) :
    a ∈ insertDesc score x l ↔ a = x ∨ a ∈ l := by
  induction l with
  | nil => simp [insertDesc]
  | cons y ys ih =>
    by_cases h : score y ≤ score x
    · simp [insertDesc, h]
    · simp [insertDesc, h, ih]
      tauto

theorem sorted_insertDesc {α : Type} (score : α → Nat) (x : α) (l : List α)
    (hl : List.Pairwise (fun a b => score b ≤ score a) l) :
    List.Pairwise (fun a b => score b ≤ score a) (insertDesc score x l) := by
  induction l with
  | nil => simp [insertDesc]
  | cons y ys ih =>
    rcases List.pairwise_cons.1 hl with ⟨hy, hys⟩
    by_cases h : score y ≤ score x
    · rw [insertDesc, if_pos h]
      refine List.pairwise_cons.2 ⟨?_, hl⟩
      intro z hz
      rcases List.mem_cons.1 hz with hz | hz
      · rw [hz]; exact h
      · exact le_trans (hy z hz) h
    · rw [insertDesc, if_neg h]
      refine List.pairwise_cons.2 ⟨?_, ih hys⟩
      intro z hz
      rcases (mem_insertDesc score x z ys).1 hz with hz | hz
      · rw [hz]; omega
      · exact hy z hz

theorem sorted_stableSortDesc {α : Type} (score : α → Nat) (l : List α) :
    List.Pairwise (fun a b => score b ≤ score a) (stableSortDesc score l) := by
  induction l with
  | nil => simp [stableSortDesc]
  | cons x xs ih => exact sorted_insertDesc score x _ ih

theorem filter_insertDesc {α : Type} (score : α → Nat) (x : α) (l : List α) (s : Nat) :
    (insertDesc score x l).filter (fun y => score y = s) =
      if score x = s then x :: l.filter (fun y => score y = s)
      else l.filter (fun y => score y = s) := by
  induction l with
  | nil =>
    by_cases hx : score x = s
    · simp [insertDesc, hx]
    · simp [insertDesc, hx]
  | cons y ys ih =>
    by_cases h : score y ≤ score x
    · rw [insertDesc, if_pos h]
      by_cases hx : score x = s
      · simp [List.filter_cons, hx]
      · simp [List.filter_cons, hx]
    · rw [insertDesc, if_neg h]
      by_cases hx : score x = s
      · have hy : ¬ score y = s := by omega
        simp [List.filter_cons, hy, ih, hx]
      · simp [List.filter_cons, ih, hx]

theorem filter_stableSortDesc {α : Type} (score : α → Nat) (l : List α) (s : Nat) :
    (stableSortDesc score l).filter (fun y => score y = s) =
      l.filter (fun y => score y = s) := by
  induction l with
  | nil => rfl
  | cons x xs ih =>
    rw [stableSortDesc, filter_insertDesc]
    by_cases hx : score x = s
    · simp [List.filter_cons, hx, ih]
    · simp [List.filter_cons, hx, ih]

theorem filter_take_eq_take_filter {α : Type} (p : α → Bool) (l : List α) (k : Nat) :
    ∃ n, (l.take k).filter p = (l.filter p).take n := by
  induction l generalizing k with
  | nil => exact ⟨0, by simp⟩
  | cons x xs ih =>
    cases k with
    | zero => exact ⟨0, by simp⟩
    | succ k =>
      rcases ih k with ⟨n, hn⟩
      by_cases hx : p x
      · exact ⟨n + 1, by simp [List.filter_cons, hx, hn]⟩
      · exact ⟨n, by simp [List.filter_cons, hx, hn]⟩

theorem take_eq_take_min {α : Type} (l : List α) (n : Nat) :
    l.take n = l.take (Nat.min n l.length) := by
  rcases Nat.le_total n l.length with h | h
  · rw [show Nat.min n l.length = n from Nat.min_eq_left h]
  · rw [show Nat.min n l.length = l.length from Nat.min_eq_right h,
      List.take_of_length_le h, List.take_length]

theorem take_eq_take_min' {α : Type} (l : List α) (n : Nat) :
    l.take n = l.take (Nat.min l.length n) := by
  rcases Nat.le_total n l.length with h | h
  · rw [show Nat.min l.length n = n from Nat.min_eq_right h]
  · rw [show Nat.min l.length n = l.length from Nat.min_eq_left h,
      List.take_of_length_le h, List.take_length]

theorem natMin_absorb (a b : Nat) : Nat.min (Nat.min a b) a = Nat.min a b := by
  simp only [Nat.min_def]
  split <;> split <;> omega

theorem natMin_le_natMin_right (a b c : Nat) (h : b ≤ c) :
    Nat.min a b ≤ Nat.min a c := by
  simp only [Nat.min_def]
  split <;> split <;> omega

theorem mem_stableSortDesc {α : Type} (score : α → Nat) (l : List α) (a : α) :
    a ∈ stableSortDesc score l ↔ a ∈ l := by
  induction l with
  | nil => simp [stableSortDesc]
  | cons x xs ih =>
    rw [stableSortDesc, mem_insertDesc]
    simp [ih]

theorem filter_map_snd {α : Type} (score : α → Nat) (l : List (Nat × α)) (s : Nat)
    (hl : ∀ p ∈ l, p.1 = score p.2) :
    (l.map Prod.snd).filter (fun x => score x = s) =
      (l.filter (fun p => p.1 = s)).map Prod.snd := by
  induction l with
  | nil => rfl
  | cons p ps ih =>
    have hp : p.1 = score p.2 := hl p (List.mem_cons_self _ _)
    have hps : ∀ q ∈ ps, q.1 = score q.2 := fun q hq => hl q (List.mem_cons_of_mem _ hq)
    by_cases hs : p.1 = s
    · simp only [List.map_cons, List.filter_cons]
      rw [if_pos (by simp [← hp, hs]), if_pos (by simp [hs])]
      simp [ih hps]
    · simp only [List.map_cons, List.filter_cons]
      rw [if_neg (by simp [← hp, hs]), if_neg (by simp [hs])]
      exact ih hps

set_option maxRecDepth 40000 in
/-- C4 counterexample: at a corpus of `S = 170` segments with the debug
profile's retain fraction `0.7`, the selection returns 118 items —
`int(170 * 0.7)` is 118 under double arithmetic because the product rounds
to just below 119 — whereas the claim's formula
`min(S, max(floor(S * f), F))` gives `min(170, max(119, 100)) = 119`: the
exact-prefix-length formula of the claim is false of the program. -/
theorem C4_counterexample :
    (filter_items_for_task (fun _ : Nat => 0) pySig07 (List.range 170)).length
      = 118 ∧
    Nat.min (List.range 170).length
      (Nat.max ((List.range 170).length * 7 / 10) 100) = 119 ∧
    pyIntTimesDouble 170 pySig07 = 118 := by
  refine ⟨by decide, by decide, by decide⟩

/-- C4 amended: for every segment list (of any size `S`) and every
retain-fraction double (the code's profiles use 0.75, 0.6 and 0.7) with
absolute floor 100, `filter_items_for_task` returns exactly the prefix of
the descending-score-sorted list of length
`min(S, max(int(S * f), 100))`, where `int(S * f)` is computed in IEEE-754
double arithmetic and can fall one below the exact `floor(S * f)` (e.g.
`int(170 * 0.7) = 118`, see the counterexample); consequently it still
never returns fewer than `min(S, 100)` items, and — last conjunct, the
spec's example — a corpus of size 50 with retain fraction 0.7 and floor
100 is returned in full. -/
theorem C4_selection_prefix_and_floor :
    (∀ (α : Type) (score : α → Nat) (retainSig : Nat) (items : List α),
      filter_items_for_task score retainSig items =
        ((stableSortDesc Prod.fst (items.map (fun it => (score it, it)))).map
          Prod.snd).take
          (Nat.min items.length
            (Nat.max (pyIntTimesDouble items.length retainSig) 100)) ∧
      (filter_items_for_task score retainSig items).length =
        Nat.min items.length
          (Nat.max (pyIntTimesDouble items.length retainSig) 100) ∧
      Nat.min items.length 100 ≤ (filter_items_for_task score retainSig items).length) ∧
    (filter_items_for_task (fun n : Nat => n) pySig07 (List.range 50)).length = 50 := by
  have hgen : ∀ (α : Type) (score : α → Nat) (retainSig : Nat) (items : List α),
      filter_items_for_task score retainSig items =
        ((stableSortDesc Prod.fst (items.map (fun it => (score it, it)))).map
          Prod.snd).take
          (Nat.min items.length
            (Nat.max (pyIntTimesDouble items.length retainSig) 100)) ∧
      (filter_items_for_task score retainSig items).length =
        Nat.min items.length
          (Nat.max (pyIntTimesDouble items.length retainSig) 100) ∧
      Nat.min items.length 100 ≤
        (filter_items_for_task score retainSig items).length := by
    intro α score retainSig items
    have hslen : (stableSortDesc Prod.fst
        (items.map (fun it => (score it, it)))).length = items.length := by
      rw [length_stableSortDesc, List.length_map]
    have h1 : filter_items_for_task score retainSig items =
        ((stableSortDesc Prod.fst (items.map (fun it => (score it, it)))).map
          Prod.snd).take
          (Nat.min items.length
            (Nat.max (pyIntTimesDouble items.length retainSig) 100)) := by
      show ((stableSortDesc Prod.fst (items.map (fun it => (score it, it)))).take
          (Nat.max (pyIntTimesDouble items.length retainSig) 100)).map Prod.snd = _
      rw [take_eq_take_min', hslen, ← List.map_take]
    have h2 : (filter_items_for_task score retainSig items).length =
        Nat.min items.length
          (Nat.max (pyIntTimesDouble items.length retainSig) 100) := by
      rw [h1, List.length_take, List.length_map, hslen]
      exact natMin_absorb _ _
    refine ⟨h1, h2, ?_⟩
    rw [h2]
    exact natMin_le_natMin_right _ _ _
      (show (100 : Nat) ≤ Nat.max (pyIntTimesDouble items.length retainSig) 100 from
        Nat.le_max_right _ _)
  refine ⟨hgen, ?_⟩
  rw [(hgen Nat (fun n => n) pySig07 (List.range 50)).2.1]
  decide

/-- C6: the scorer's descending sort by score is stable: filtering the
sorted pair list to any single score value yields exactly the input pairs
with that score, in original scan order; the sorted list is descending by
score; and consequently the equal-score items of the selection output form
an input-ordered prefix of the input's equal-score items.  The selection is
a pure function, so two runs over an unchanged segment list produce the
identical output. -/
theorem C6_stable_sort_ties (α : Type) (score : α → Nat) (retainNum : Nat)
    (items : List α) (s : Nat) :
    (stableSortDesc Prod.fst (items.map (fun it => (score it, it)))).filter
        (fun p => p.1 = s) =
      (items.map (fun it => (score it, it))).filter (fun p => p.1 = s) ∧
    List.Pairwise (fun p q => q.1 ≤ p.1)
      (stableSortDesc Prod.fst (items.map (fun it => (score it, it)))) ∧
    ∃ n, (filter_items_for_task score retainNum items).filter
        (fun x => score x = s) =
      (items.filter (fun x => score x = s)).take n := by
  refine ⟨filter_stableSortDesc Prod.fst _ s, sorted_stableSortDesc Prod.fst _, ?_⟩
  have hinv : ∀ p ∈ (stableSortDesc Prod.fst
      (items.map (fun it => (score it, it)))).take
        (Nat.max (pyIntTimesDouble items.length retainNum) 100), p.1 = score p.2 := by
    intro p hp
    have hp2 : p ∈ stableSortDesc Prod.fst (items.map (fun it => (score it, it))) :=
      List.take_subset _ _ hp
    have hp3 : p ∈ items.map (fun it => (score it, it)) :=
      (mem_stableSortDesc _ _ _).1 hp2
    rcases List.mem_map.1 hp3 with ⟨it, _, hit⟩
    rw [← hit]
  have hout : filter_items_for_task score retainNum items =
      ((stableSortDesc Prod.fst (items.map (fun it => (score it, it)))).take
        (Nat.max (pyIntTimesDouble items.length retainNum) 100)).map Prod.snd := rfl
  rw [hout, filter_map_snd score _ s hinv]
  rcases filter_take_eq_take_filter (fun p : Nat × α => decide (p.1 = s))
    (stableSortDesc Prod.fst (items.map (fun it => (score it, it))))
    (Nat.max (pyIntTimesDouble items.length retainNum) 100) with ⟨n, hn⟩
  refine ⟨n, ?_⟩
  rw [hn, filter_stableSortDesc Prod.fst _ s, List.filter_map, ← List.map_take]
  have : (Prod.snd ∘ fun it : α => (score it, it)) = id := rfl
  rw [show ((fun p : Nat × α => decide (p.1 = s)) ∘ fun it => (score it, it)) =
    (fun x => decide (score x = s)) from rfl]
  rw [List.map_map, this, List.map_id]

/-! ## Primitive string helpers

Computable counterparts of the Python string methods used by the scanners
(`str.strip`, `str.split("\n")`, `"\n".join`, `str.startswith`), written by
structural recursion over the character list so that concrete runs reduce
inside the kernel. -/

/-- Python `str.strip()`: drop leading and trailing whitespace. -/
def strip (s : String) : String :=
  String.mk
    (((s.toList.dropWhile Char.isWhitespace).reverse.dropWhile
      Char.isWhitespace).reverse)

/-- The character-list worker of `splitLines`. -/
def splitLinesAux : List Char → List Char → List String
  | [], acc => [String.mk acc.reverse]
  | c :: cs, acc =>
    if c == '\n' then String.mk acc.reverse :: splitLinesAux cs []
    else splitLinesAux cs (c :: acc)

/-- Python `content.split("\n")` (empty pieces kept, `[""]` on `""`). -/
def splitLines (s : String) : List String := splitLinesAux s.toList []

/-- Python `"\n".join(lines)`. -/
def joinLines : List String → String
  | [] => ""
  | [l] => l
  | l :: ls => l ++ "\n" ++ joinLines ls

/-- The character-list worker of `strStarts`. -/
def strStartsAux : List Char → List Char → Bool
  | [], _ => true
  | _ :: _, [] => false
  | a :: as, b :: bs => a == b && strStartsAux as bs

/-- Python `s.startswith(pre)`. -/
def strStarts (pre s : String) : Bool := strStartsAux pre.toList s.toList

/-! ## Line-anchored boundary scanner (`Zelda3DisasmGenerator`) -/

/-- A word character of the regexes' `\w` / `[A-Za-z0-9_]` classes (the
inputs considered are ASCII). -/
def isWordChar (c : Char) : Bool := c.isAlphanum || c == '_'

/-- Whether a character tail matches the regex fragment
`\s*(?:;.*)?$`. -/
def labelTailOk : List Char → Bool
  | [] => true
  | c :: cs => if c == ';' then true else c.isWhitespace && labelTailOk cs

/-- `LABEL_PATTERN = re.compile(r"^(\w+):\s*(?:;.*)?$")` matched against a
stripped line; returns the captured label. -/
def labelMatch (s : String) : Option String :=
  let cs := s.toList
  let w := cs.takeWhile isWordChar
  let rest := cs.dropWhile isWordChar
  if w.isEmpty then none
  else
    match rest with
    | ':' :: tail => if labelTailOk tail then some (String.mk w) else none
    | _ => none

/-- The in-progress `current_routine` accumulator of
`_extract_routines_from_file`.  The `comments` / `labels_called` /
`addresses` metadata lists collected alongside do not influence where
segments start or end nor whether they are emitted, and are elided. -/
structure RoutineAcc where
  label : String
  line_start : Nat
  code_lines : List String
deriving DecidableEq

/-- An emitted routine segment (the segmentation-relevant fields of
`Zelda3SourceItem`: `label`, `code`, `line_start`, `line_end`). -/
structure Zelda3Item where
  label : String
  code : String
  line_start : Nat
  line_end : Nat
deriving DecidableEq

/-- `_finalize_routine`: drop routines with fewer than `minLines` collected
lines (the source hardcodes `< 5`; the bound is a parameter so that the
spec's lowered-minimum scenario is expressible), otherwise join the lines
and set `line_end = line_start + len(code_lines)`. -/
def finalizeRoutine (minLines : Nat) (r : RoutineAcc) : Option Zelda3Item :=
  if r.code_lines.length < minLines then none
  else
    some ⟨r.label, joinLines r.code_lines, r.line_start,
      r.line_start + r.code_lines.length⟩

/-- `is_next_label`: the line after the current one starts a new label. -/
def nextIsLabel : List String → Bool
  | [] => false
  | nxt :: _ => (labelMatch (strip nxt)).isSome

/-- The scanning loop of `_extract_routines_from_file` over the remaining
lines, carrying the current line index and the in-progress routine.  A
label line first finalizes any previous routine, then opens a new one; a
body line is appended to the current routine, which is then closed if the
line is blank, the next line is a label, or the routine reached
`max_routine_lines`; at end of file the in-progress routine is
finalized. -/
def extractRoutines (maxLines minLines : Nat) :
    List String → Nat → Option RoutineAcc → List Zelda3Item
  | [], _, none => []
  | [], _, some r => (finalizeRoutine minLines r).toList
  | line :: rest, i, cur =>
    match labelMatch (strip line) with
    | some lbl =>
      (match cur with
       | some r => (finalizeRoutine minLines r).toList
       | none => []) ++
        extractRoutines maxLines minLines rest (i + 1) (some ⟨lbl, i, [line]⟩)
    | none =>
      match cur with
      | none => extractRoutines maxLines minLines rest (i + 1) none
      | some r =>
        if (strip line == "") || nextIsLabel rest ||
            decide (maxLines ≤ (r.code_lines ++ [line]).length) then
          (finalizeRoutine minLines
            ⟨r.label, r.line_start, r.code_lines ++ [line]⟩).toList ++
            extractRoutines maxLines minLines rest (i + 1) none
        else
          extractRoutines maxLines minLines rest (i + 1)
            (some ⟨r.label, r.line_start, r.code_lines ++ [line]⟩)

/-- `_extract_routines_from_file` on a whole file text
(`content.split("\n")`); `maxLines` is `max_routine_lines` (default 100)
and `minLines` the minimum-significance bound of `_finalize_routine`. -/
def extractRoutinesFromFile (maxLines minLines : Nat) (content : String) :
    List Zelda3Item :=
  extractRoutines maxLines minLines (splitLines content) 0 none

/-! ## `RoutineScanner.scan` (`src/scripts/routine_scanner.py`) -/

/-- Python `str.rstrip()`: remove trailing whitespace. -/
def rstrip (s : String) : String :=
  String.mk (s.toList.reverse.dropWhile Char.isWhitespace).reverse

/-- `label_pattern = re.compile(r"^([A-Za-z0-9_]+):")` via `.match` on the
stripped line (anything may follow the colon). -/
def scanLabelMatch (s : String) : Option String :=
  let cs := s.toList
  let w := cs.takeWhile isWordChar
  match cs.dropWhile isWordChar with
  | ':' :: _ => if w.isEmpty then none else some (String.mk w)
  | _ => none

/-- Third letter of a return mnemonic (`S`, `L` or `I`, either case). -/
def isRetThird (c : Char) : Bool :=
  c == 'S' || c == 's' || c == 'L' || c == 'l' || c == 'I' || c == 'i'

/-- Whether the list starts with a word character. -/
def headIsWordChar : List Char → Bool
  | [] => false
  | c :: _ => isWordChar c

/-- Scan for `\b(RTS|RTL|RTI)\b` (case-insensitive) from every position:
a case-insensitive `RT[SLI]` triple with non-word context on both sides. -/
def hasRetFrom (prevIsWord : Bool) : List Char → Bool
  | a :: b :: c :: rest =>
      ((a == 'R' || a == 'r') && (b == 'T' || b == 't') && isRetThird c &&
        !prevIsWord && !headIsWordChar rest) ||
      hasRetFrom (isWordChar a) (b :: c :: rest)
  | _ => false

/-- `return_pattern.search(stripped)` of `RoutineScanner`. -/
def searchReturn (s : String) : Bool := hasRetFrom false s.toList

/-- A routine record produced by `RoutineScanner.scan`. -/
structure ScanRoutine where
  name : String
  code : String
deriving DecidableEq

/-- The line loop of `RoutineScanner.scan`: a label line finishes the
previous routine (even with no return instruction found) and opens a new
one; a body line is appended and a return-class instruction closes the
routine.  Note there is no flush after the loop: a routine still in
progress when the input ends is not appended to the result. -/
def routineScanLoop : List String → Option (String × List String) → List ScanRoutine
  | [], _ => []
  | line :: rest, cur =>
    match scanLabelMatch (strip line) with
    | some name =>
      (match cur with
       | some (n, ls) => [⟨n, joinLines ls⟩]
       | none => []) ++ routineScanLoop rest (some (name, [rstrip line]))
    | none =>
      match cur with
      | none => routineScanLoop rest none
      | some (n, ls) =>
        let ls' := ls ++ [rstrip line]
        if searchReturn (strip line) then
          ⟨n, joinLines ls'⟩ :: routineScanLoop rest none
        else
          routineScanLoop rest (some (n, ls'))

/-- `RoutineScanner.scan` over the file's lines. -/
def routineScan (lines : List String) : List ScanRoutine :=
  routineScanLoop lines none

/-! ## Brace-balance block extraction (`CppDataGenerator`) -/

/-- Python `line.count(c)` for a single character. -/
def countChar (c : Char) (s : String) : Nat :=
  (s.toList.filter (fun x => x == c)).length

/-- The loop of `extract_block`: remaining lines, running brace count,
whether an opening brace has been seen, accumulated block lines, the
current index, and the `len(lines) - 1` index returned at EOF. -/
def extractBlockAux : List String → Int → Bool → List String → Nat → Nat →
    String × Nat
  | [], _, _, acc, _, eofIdx => (joinLines acc, eofIdx)
  | line :: rest, count, foundOpen, acc, i, eofIdx =>
    let acc' := acc ++ [line]
    let count' := count + (countChar '{' line : Int) - (countChar '}' line : Int)
    let foundOpen' := foundOpen || decide (0 < countChar '{' line)
    if foundOpen' && count' == 0 then (joinLines acc', i)
    else extractBlockAux rest count' foundOpen' acc' (i + 1) eofIdx

/-- `extract_block(start_idx, lines)`: scan forward from `start_idx`
applying each line's net brace delta; stop at the first line where a brace
has been opened and the running count is back to zero; when the count never
returns to zero, fall off the loop and return ALL accumulated lines with
index `len(lines) - 1`. -/
def extract_block (lines : List String) (startIdx : Nat) : String × Nat :=
  extractBlockAux (lines.drop startIdx) 0 false [] startIdx (lines.length - 1)

/-- An extracted C++ code unit (`CppSourceItem`), extended with the
`line_start`/`line_end` range that `_parse_cpp_file` scans
(`i` … `end_idx` of `extract_block`). -/
structure CppItem where
  name : String
  code : String
  kind : String
  line_start : Nat
  line_end : Nat
deriving DecidableEq

/-- The comment guard of the function pass:
`line.strip().startswith("//") or line.strip().startswith("/*")`. -/
def commentStart (line : String) : Bool :=
  strStarts "//" (strip line) || strStarts "/*" (strip line)

/-- The function-finding pass of `_parse_cpp_file`: for every non-comment
line on which `FUNCTION_PATTERN` fires — the regex is abstracted as a
per-line recognizer returning the captured `name` group; `"::" not in
name` is always true for a `\w+` capture — emit the block extracted from
that line.  The docstring lookup above the declaration affects only the
`docstring` metadata field and is elided. -/
def cppFunctionPass (isFuncDecl : String → Option String) (lines : List String) :
    List CppItem :=
  lines.enum.filterMap (fun p =>
    if commentStart p.2 then none
    else
      match isFuncDecl p.2 with
      | some nm =>
        some ⟨nm, (extract_block lines p.1).1, "function", p.1,
          (extract_block lines p.1).2⟩
      | none => none)

/-- The class/struct pass (`CLASS_PATTERN.finditer` with each match start
converted to its line index), abstracted per line; it has no comment
guard. -/
def cppClassPass (isClassDecl : String → Option String) (lines : List String) :
    List CppItem :=
  lines.enum.filterMap (fun p =>
    match isClassDecl p.2 with
    | some nm =>
      some ⟨nm, (extract_block lines p.1).1, "class", p.1,
        (extract_block lines p.1).2⟩
    | none => none)

/-- The qualified-method pass (`METHOD_PATTERN.finditer`), same shape. -/
def cppMethodPass (isMethodDecl : String → Option String) (lines : List String) :
    List CppItem :=
  lines.enum.filterMap (fun p =>
    match isMethodDecl p.2 with
    | some nm =>
      some ⟨nm, (extract_block lines p.1).1, "method", p.1,
        (extract_block lines p.1).2⟩
    | none => none)

/-- `_parse_cpp_file`: the function items, then the class items, then the
method items — three separate passes whose results are concatenated in
that order. -/
def parse_cpp_file (isFuncDecl isClassDecl isMethodDecl : String → Option String)
    (lines : List String) : List CppItem :=
  cppFunctionPass isFuncDecl lines ++ cppClassPass isClassDecl lines ++
    cppMethodPass isMethodDecl lines

/-- Identifier directly preceding the first `(` of a line. -/
def identBeforeParen (line : String) : Option String :=
  let pre := line.toList.takeWhile (fun c => !(c == '('))
  let nm := (pre.reverse.takeWhile isWordChar).reverse
  if nm.isEmpty then none else some (String.mk nm)

/-- Concrete stand-in for `FUNCTION_PATTERN` on the concrete inputs of the
theorems below (a line containing `(`, `)` and `\x7b` with an identifier
before the `(`); on those inputs it fires on exactly the lines the Python
regex matches, capturing the same name. -/
def demoFuncDecl (line : String) : Option String :=
  if 0 < countChar '(' line && 0 < countChar ')' line &&
      0 < countChar '{' line then
    identBeforeParen line
  else none

/-- Concrete stand-in for `CLASS_PATTERN` on the concrete inputs below:
a line of the shape `class NAME \x7b`. -/
def demoClassDecl (line : String) : Option String :=
  if strStarts "class " (strip line) then
    let nm := ((strip line).toList.drop 6).takeWhile isWordChar
    if nm.isEmpty then none else some (String.mk nm)
  else none

/-- The concrete inputs below contain no `Class::method` definitions. -/
def noMethodDecl (_ : String) : Option String := none

/-! ## Claim theorems about extraction: C2, C7, C8 -/

theorem length_filterMap_eq_length_filter {α β : Type} (l : List α) (g : α → Option β)
    (p : α → Bool) (h : ∀ x, (g x).isSome = p x) :
    (l.filterMap g).length = (l.filter p).length := by
  induction l with
  | nil => rfl
  | cons x xs ih =>
    cases hg : g x with
    | none =>
      have hp : p x = false := by rw [← h x, hg]; rfl
      simp [List.filterMap_cons, hg, List.filter_cons, hp, ih]
    | some b =>
      have hp : p x = true := by rw [← h x, hg]; rfl
      simp [List.filterMap_cons, hg, List.filter_cons, hp, ih]

/-- C2 amended: extraction does NOT discard the partial segment of an
unterminated block: every non-comment line on which the declaration
recognizer fires contributes exactly one emitted segment — `extract_block`
falls off its loop at end of file and returns the accumulated lines even
when the brace count never returned to zero, so such a segment is emitted
with unbalanced brace delimiters (see the counterexample). -/
theorem C2_every_declaration_emitted (isFuncDecl : String → Option String)
    (lines : List String) :
    (cppFunctionPass isFuncDecl lines).length =
      (lines.enum.filter
        (fun p => !commentStart p.2 && (isFuncDecl p.2).isSome)).length := by
  apply length_filterMap_eq_length_filter
  intro x
  by_cases hc : commentStart x.2
  · simp [hc]
  · cases hf : isFuncDecl x.2 <;> simp [hc, hf]

/-- C2 counterexample: the two-line file `void f() \x7b` / `  int x;` has a
declaration whose brace count never returns to zero by end of file, yet
`_parse_cpp_file` emits the partial segment: its code holds one opening and
no closing brace — refuting "the partial segment is discarded" and "no
segment in the returned list has unbalanced brace delimiters". -/
theorem C2_counterexample :
    parse_cpp_file demoFuncDecl demoClassDecl noMethodDecl
        ["void f() \x7b", "  int x;"] =
      [⟨"f", "void f() \x7b\n  int x;", "function", 0, 1⟩] ∧
    countChar '{' "void f() \x7b\n  int x;" = 1 ∧
    countChar '}' "void f() \x7b\n  int x;" = 0 :=
  ⟨rfl, rfl, rfl⟩

/-- C7 counterexample: on `Foo:` + two instruction lines + a blank line +
`Bar:` with minimum lowered to 3, exactly one segment named `Foo` is
produced, but the terminating blank line was appended to the routine before
the end-of-segment check fired: no emitted segment has the claimed
blank-line-free text or a 3-line count — the code ends with a trailing
newline and `line_end - line_start = 4`. -/
theorem C7_counterexample :
    extractRoutinesFromFile 100 3 "Foo:\n  op1\n  op2\n\nBar:" =
      [⟨"Foo", "Foo:\n  op1\n  op2\n", 0, 4⟩] ∧
    (∀ it ∈ extractRoutinesFromFile 100 3 "Foo:\n  op1\n  op2\n\nBar:",
      ¬ (it.code = "Foo:\n  op1\n  op2" ∧ it.line_end - it.line_start = 3)) := by
  refine ⟨rfl, ?_⟩
  decide

/-- C7 amended: with minimum line count 3 the input yields exactly one
segment named `Foo`, whose text however ends with the terminating blank
line (trailing newline) and whose line count is 4 — the blank line IS part
of the segment's text and count — so with the default minimum of 5 the
segment is dropped because 4 < 5. -/
theorem C7_blank_line_included :
    extractRoutinesFromFile 100 3 "Foo:\n  op1\n  op2\n\nBar:" =
      [⟨"Foo", "Foo:\n  op1\n  op2\n", 0, 4⟩] ∧
    extractRoutinesFromFile 100 5 "Foo:\n  op1\n  op2\n\nBar:" = [] :=
  ⟨rfl, rfl⟩

/-- C8 counterexample: `RoutineScanner.scan` on a file whose label opens a
routine that reaches end of file without a return instruction returns no
routines at all — the in-progress segment is silently dropped at EOF, not
closed and emitted as the claim states for the
return-instruction-terminated variant. -/
theorem C8_counterexample :
    (scanLabelMatch "Foo:").isSome = true ∧
    routineScan ["Foo:", "  LDA #$00"] = [] :=
  ⟨rfl, rfl⟩

/-- C8 amended: the zelda3 line-anchored extractor closes the in-progress
segment at end of file and emits it subject only to the minimum-line filter
(the EOF equation of the loop, and a 5-line label-opened routine with no
terminator emitted whole at EOF); `RoutineScanner.scan` — the
return-instruction-terminated variant — however returns with no EOF flush,
silently dropping the routine still in progress. -/
theorem C8_eof_close :
    (∀ (maxLines minLines i : Nat) (r : RoutineAcc),
      extractRoutines maxLines minLines [] i (some r) =
        (finalizeRoutine minLines r).toList) ∧
    extractRoutinesFromFile 100 5 "Foo:\nA\nB\nC\nD" =
      [⟨"Foo", "Foo:\nA\nB\nC\nD", 0, 5⟩] ∧
    (∀ cur, routineScanLoop [] cur = []) :=
  ⟨fun _ _ _ _ => rfl, rfl, fun _ => rfl⟩

/-- C3 counterexample: on a class with an inline method, the function pass
emits the method body (lines 1–3) and the class pass then emits the whole
class block (lines 0–4): the two segments' line ranges intersect and the
output is not sorted ascending by start line — refuting the claim for
`_parse_cpp_file`. -/
theorem C3_counterexample :
    (parse_cpp_file demoFuncDecl demoClassDecl noMethodDecl
        ["class Foo \x7b", "  int bar() \x7b", "    return 1;", "  \x7d",
          "\x7d;"]).map (fun it => (it.line_start, it.line_end)) =
      [(1, 3), (0, 4)] ∧
    ¬ List.Pairwise (fun a b : CppItem =>
        a.line_end < b.line_start ∨ b.line_end < a.line_start)
      (parse_cpp_file demoFuncDecl demoClassDecl noMethodDecl
        ["class Foo \x7b", "  int bar() \x7b", "    return 1;", "  \x7d",
          "\x7d;"]) ∧
    ¬ List.Pairwise (fun a b : CppItem => a.line_start ≤ b.line_start)
      (parse_cpp_file demoFuncDecl demoClassDecl noMethodDecl
        ["class Foo \x7b", "  int bar() \x7b", "    return 1;", "  \x7d",
          "\x7d;"]) := by
  refine ⟨rfl, ?_, ?_⟩ <;> decide

/-! ## Ordering of the segments produced by the line-anchored scanner -/

theorem extractRoutines_cons_eq (M m : Nat) (line : String) (rest : List String)
    (i : Nat) (cur : Option RoutineAcc) :
    extractRoutines M m (line :: rest) i cur =
      (match labelMatch (strip line) with
       | some lbl =>
         (match cur with
          | some r => (finalizeRoutine m r).toList
          | none => []) ++
           extractRoutines M m rest (i + 1) (some ⟨lbl, i, [line]⟩)
       | none =>
         match cur with
         | none => extractRoutines M m rest (i + 1) none
         | some r =>
           if (strip line == "") || nextIsLabel rest ||
               decide (M ≤ (r.code_lines ++ [line]).length) then
             (finalizeRoutine m
               ⟨r.label, r.line_start, r.code_lines ++ [line]⟩).toList ++
               extractRoutines M m rest (i + 1) none
           else
             extractRoutines M m rest (i + 1)
               (some ⟨r.label, r.line_start, r.code_lines ++ [line]⟩)) := rfl

theorem extractRoutines_label (M m : Nat) (line : String) (rest : List String)
    (i : Nat) (cur : Option RoutineAcc) (lbl : String)
    (h : labelMatch (strip line) = some lbl) :
    extractRoutines M m (line :: rest) i cur =
      (match cur with
       | some r => (finalizeRoutine m r).toList
       | none => []) ++
        extractRoutines M m rest (i + 1) (some ⟨lbl, i, [line]⟩) := by
  rw [extractRoutines_cons_eq, h]

theorem extractRoutines_body_none (M m : Nat) (line : String) (rest : List String)
    (i : Nat) (h : labelMatch (strip line) = none) :
    extractRoutines M m (line :: rest) i none =
      extractRoutines M m rest (i + 1) none := by
  rw [extractRoutines_cons_eq, h]

theorem extractRoutines_body_close (M m : Nat) (line : String) (rest : List String)
    (i : Nat) (r : RoutineAcc) (h : labelMatch (strip line) = none)
    (hc : ((strip line == "") || nextIsLabel rest ||
      decide (M ≤ (r.code_lines ++ [line]).length)) = true) :
    extractRoutines M m (line :: rest) i (some r) =
      (finalizeRoutine m ⟨r.label, r.line_start, r.code_lines ++ [line]⟩).toList ++
        extractRoutines M m rest (i + 1) none := by
  rw [extractRoutines_cons_eq, h]
  exact if_pos hc

theorem extractRoutines_body_cont (M m : Nat) (line : String) (rest : List String)
    (i : Nat) (r : RoutineAcc) (h : labelMatch (strip line) = none)
    (hc : ((strip line == "") || nextIsLabel rest ||
      decide (M ≤ (r.code_lines ++ [line]).length)) = false) :
    extractRoutines M m (line :: rest) i (some r) =
      extractRoutines M m rest (i + 1)
        (some ⟨r.label, r.line_start, r.code_lines ++ [line]⟩) := by
  rw [extractRoutines_cons_eq, h]
  exact if_neg (by rw [hc]; decide)

/-- Lower bound for the start of any segment still to be produced: the
current routine's start when one is open, the current index otherwise. -/
def curBound (i : Nat) : Option RoutineAcc → Nat
  | none => i
  | some r => r.line_start

/-- Accumulator well-formedness: an open routine holds exactly the lines
from its start up to the current index. -/
def CurOk (i : Nat) : Option RoutineAcc → Prop
  | none => True
  | some r => r.line_start + r.code_lines.length = i ∧ 0 < r.code_lines.length

theorem mem_finalize (m : Nat) (r : RoutineAcc) (it : Zelda3Item)
    (h : it ∈ (finalizeRoutine m r).toList) :
    it.line_start = r.line_start ∧
      it.line_end = r.line_start + r.code_lines.length := by
  unfold finalizeRoutine at h
  by_cases hl : r.code_lines.length < m
  · simp [hl] at h
  · simp only [hl, if_false, Option.toList_some, List.mem_singleton] at h
    rw [h]
    exact ⟨rfl, rfl⟩

theorem extract_lb (M m : Nat) (lines : List String) (i : Nat)
    (cur : Option RoutineAcc) (hc : CurOk i cur) :
    ∀ it ∈ extractRoutines M m lines i cur,
      curBound i cur ≤ it.line_start ∧ it.line_start < it.line_end := by
  induction lines generalizing i cur with
  | nil =>
    intro it hit
    cases cur with
    | none => simp [extractRoutines] at hit
    | some r =>
      obtain ⟨h1, h2⟩ :=
        mem_finalize m r it (by rwa [show extractRoutines M m [] i (some r) =
          (finalizeRoutine m r).toList from rfl] at hit)
      obtain ⟨hs, hp⟩ := hc
      exact ⟨le_of_eq h1.symm, by omega⟩
  | cons line rest ih =>
    intro it hit
    cases hl : labelMatch (strip line) with
    | some lbl =>
      rw [extractRoutines_label M m line rest i cur lbl hl] at hit
      rcases List.mem_append.1 hit with hprev | hrec
      · cases cur with
        | none => simp at hprev
        | some r =>
          obtain ⟨h1, h2⟩ := mem_finalize m r it hprev
          obtain ⟨hs, hp⟩ := hc
          exact ⟨le_of_eq h1.symm, by omega⟩
      · have := ih (i + 1) (some ⟨lbl, i, [line]⟩) ⟨by simp, by simp⟩ it hrec
        simp only [curBound] at this
        refine ⟨?_, this.2⟩
        cases cur with
        | none => exact this.1
        | some r =>
          obtain ⟨hs, hp⟩ := hc
          simp only [curBound] at this ⊢
          omega
    | none =>
      cases cur with
      | none =>
        rw [extractRoutines_body_none M m line rest i hl] at hit
        have := ih (i + 1) none trivial it hit
        simp only [curBound] at this ⊢
        exact ⟨by omega, this.2⟩
      | some r =>
        obtain ⟨hs, hp⟩ := hc
        cases hcnd : ((strip line == "") || nextIsLabel rest ||
            decide (M ≤ (r.code_lines ++ [line]).length)) with
        | true =>
          rw [extractRoutines_body_close M m line rest i r hl hcnd] at hit
          rcases List.mem_append.1 hit with hprev | hrec
          · obtain ⟨h1, h2⟩ := mem_finalize m _ it hprev
            have h1' : it.line_start = r.line_start := h1
            have h2' : it.line_end =
                r.line_start + (r.code_lines ++ [line]).length := h2
            simp only [List.length_append, List.length_singleton] at h2'
            exact ⟨le_of_eq h1'.symm, by omega⟩
          · have := ih (i + 1) none trivial it hrec
            simp only [curBound] at this ⊢
            exact ⟨by omega, this.2⟩
        | false =>
          rw [extractRoutines_body_cont M m line rest i r hl hcnd] at hit
          have := ih (i + 1) (some ⟨r.label, r.line_start, r.code_lines ++ [line]⟩)
            ⟨by simp; omega, by simp⟩ it hit
          simp only [curBound] at this ⊢
          exact this

theorem extract_pairwise (M m : Nat) (lines : List String) (i : Nat)
    (cur : Option RoutineAcc) (hc : CurOk i cur) :
    List.Pairwise (fun a b : Zelda3Item => a.line_end ≤ b.line_start)
      (extractRoutines M m lines i cur) := by
  induction lines generalizing i cur with
  | nil =>
    cases cur with
    | none => simp [extractRoutines]
    | some r =>
      rw [show extractRoutines M m [] i (some r) = (finalizeRoutine m r).toList
        from rfl]
      cases hf : finalizeRoutine m r <;> simp [hf]
  | cons line rest ih =>
    cases hl : labelMatch (strip line) with
    | some lbl =>
      rw [extractRoutines_label M m line rest i cur lbl hl]
      apply List.pairwise_append.2
      refine ⟨?_, ih (i + 1) (some ⟨lbl, i, [line]⟩) ⟨by simp, by simp⟩, ?_⟩
      · cases cur with
        | none => simp
        | some r => cases hf : finalizeRoutine m r <;> simp [hf]
      · intro a ha b hb
        cases cur with
        | none => simp at ha
        | some r =>
          obtain ⟨h1, h2⟩ := mem_finalize m r a ha
          obtain ⟨hs, hp⟩ := hc
          have hb' := extract_lb M m rest (i + 1) (some ⟨lbl, i, [line]⟩)
            ⟨by simp, by simp⟩ b hb
          simp only [curBound] at hb'
          omega
    | none =>
      cases cur with
      | none =>
        rw [extractRoutines_body_none M m line rest i hl]
        exact ih (i + 1) none trivial
      | some r =>
        obtain ⟨hs, hp⟩ := hc
        cases hcnd : ((strip line == "") || nextIsLabel rest ||
            decide (M ≤ (r.code_lines ++ [line]).length)) with
        | true =>
          rw [extractRoutines_body_close M m line rest i r hl hcnd]
          apply List.pairwise_append.2
          refine ⟨?_, ih (i + 1) none trivial, ?_⟩
          · cases hf : finalizeRoutine m
                ⟨r.label, r.line_start, r.code_lines ++ [line]⟩ <;> simp [hf]
          · intro a ha b hb
            obtain ⟨h1, h2⟩ := mem_finalize m _ a ha
            simp only [List.length_append, List.length_singleton] at h2
            have hb' := extract_lb M m rest (i + 1) none trivial b hb
            simp only [curBound] at hb'
            omega
        | false =>
          rw [extractRoutines_body_cont M m line rest i r hl hcnd]
          exact ih (i + 1) (some ⟨r.label, r.line_start, r.code_lines ++ [line]⟩)
            ⟨by simp; omega, by simp⟩

theorem pairwise_imp_mem {α : Type} {R S : α → α → Prop} (l : List α)
    (h : ∀ a ∈ l, ∀ b ∈ l, R a b → S a b) (hp : l.Pairwise R) : l.Pairwise S := by
  induction l with
  | nil => exact List.Pairwise.nil
  | cons x xs ih =>
    rcases List.pairwise_cons.1 hp with ⟨hx, hxs⟩
    refine List.pairwise_cons.2 ⟨?_, ?_⟩
    · intro b hb
      exact h x (List.mem_cons_self _ _) b (List.mem_cons_of_mem _ hb) (hx b hb)
    · exact ih (fun a ha b hb => h a (List.mem_cons_of_mem _ ha) b
        (List.mem_cons_of_mem _ hb)) hxs

/-- C3 amended: the claim holds for the line-anchored zelda3 extractor:
for every file text and every max/min configuration, the returned segments
are pairwise non-overlapping — each segment ends (exclusive `line_end`, as
`line_end = line_start + len(code_lines)`) no later than the next begins,
with `line_start < line_end` — and the list is sorted strictly ascending by
start line, so no nested or repeated ranges are emitted.  (It fails for
`_parse_cpp_file`, whose class pass re-emits ranges already covered by the
function pass — see the counterexample.) -/
theorem C3_zelda3_nonoverlap_sorted (maxLines minLines : Nat) (content : String) :
    List.Pairwise (fun a b : Zelda3Item => a.line_end ≤ b.line_start)
      (extractRoutinesFromFile maxLines minLines content) ∧
    (∀ it ∈ extractRoutinesFromFile maxLines minLines content,
      it.line_start < it.line_end) ∧
    List.Pairwise (fun a b : Zelda3Item => a.line_start < b.line_start)
      (extractRoutinesFromFile maxLines minLines content) := by
  have hpw := extract_pairwise maxLines minLines (splitLines content) 0 none trivial
  have hlb := extract_lb maxLines minLines (splitLines content) 0 none trivial
  refine ⟨hpw, fun it hit => (hlb it hit).2, ?_⟩
  apply pairwise_imp_mem _ _ hpw
  intro a ha b _ hR
  have := (hlb a ha).2
  omega

end HafsSpec
